import Mathlib

/-!
Verification development for the geodesic Y connection game
(`open_spiel/games/geodesic_y.h`): board-topology generator, edge
classifier, and the union-find based game-state engine.

Machine integers are modelled as `Nat` with an explicit `% 65536`
wherever the C++ code converts a value to the 16-bit `Node` /
`uint16_t` type.  Intermediate C++ arithmetic is promoted to `int`,
which is exact for the value ranges reachable here, so only the
conversions back to 16-bit types truncate.  `std::vector::at` throws
on an out-of-range index; the model's reads return a default cell
whose owner is `kPlayerNone` and its writes are no-ops, which is only
observable where the C++ program would have aborted.
-/

namespace GeodesicY

/-- Embedding of `boardSize` (geodesic_y.h): `3 * base_size * (base_size - 1) / 2`
computed in `int` and truncated to the 16-bit `Node` return type.
(For `base_size = 0` the C++ `int` expression is also `0`.) -/
def boardSize (base_size : Nat) : Nat :=
  3 * base_size * (base_size - 1) / 2 % 65536

/-- Embedding of `topNode`: smallest node of the outer ring, `boardSize (base_size - 1)`.
(The C++ `base_size - 1` is `int` arithmetic; for `base_size = 0` the C++
call is undefined behaviour, which the model does not chase.) -/
def topNode (base_size : Nat) : Nat :=
  boardSize (base_size - 1)

/-- Embedding of `rightNode`: `topNode base_size + base_size - 1`, truncated to `Node`. -/
def rightNode (base_size : Nat) : Nat :=
  (topNode base_size + base_size - 1) % 65536

/-- Embedding of `leftNode`: `rightNode base_size + base_size - 1`, truncated to `Node`. -/
def leftNode (base_size : Nat) : Nat :=
  (rightNode base_size + base_size - 1) % 65536

/-- Edge bit `kRight` of the `Edge` enum. -/
def kRight : Nat := 1

/-- Edge bit `kBottom` of the `Edge` enum. -/
def kBottom : Nat := 2

/-- Edge bit `kLeft` of the `Edge` enum. -/
def kLeft : Nat := 4

/-- Embedding of `getEdge(node, base_size)`: intrinsic edge bitmask of a node. -/
def getEdge (node : Nat) (base_size : Nat) : Nat :=
  let top := topNode base_size
  let right := rightNode base_size
  let left := leftNode base_size
  let edge := 0
  let edge := if top ≤ node ∧ node ≤ right then edge ||| kRight else edge
  let edge := if right ≤ node ∧ node ≤ left then edge ||| kBottom else edge
  let edge := if left ≤ node ∨ node = top then edge ||| kLeft else edge
  edge

/-- Model of `neighbors.at(i).push_back` of a batch of values: append `vs` to the
`i`-th list.  (`List.set` is a no-op out of range, where `at` throws.) -/
def pushAt (nb : List (List Nat)) (i : Nat) (vs : List Nat) : List (List Nat) :=
  nb.set i (nb.getD i [] ++ vs)

/-- The body of the inner loop of `generateNeighbors` for one `cell` of a
ring: the clockwise push followed by the pushes into the ring below, as one
list; `none` is the `throw std::runtime_error("unknown cell")` branch. -/
def cellPushes (top right left top_below right_below left_below last : Nat)
    (cell : Nat) : Option (List Nat) :=
  let clockwise := if cell = last then [top] else [cell + 1]
  if cell = top then
    some (clockwise ++ [top_below])
  else if top < cell ∧ cell < right then
    let nhbr := (top_below + cell - top) % 65536
    some (clockwise ++ [nhbr - 1, nhbr])
  else if cell = right then
    some (clockwise ++ [right_below])
  else if right < cell ∧ cell < left then
    let nhbr := (right_below + cell - right) % 65536
    some (clockwise ++ [nhbr - 1, nhbr])
  else if cell = left then
    some (clockwise ++ [left_below])
  else if cell < last then
    let nhbr := (left_below + cell - left) % 65536
    some (clockwise ++ [nhbr - 1, nhbr])
  else if cell = last then
    let nhbr := (left_below + cell - left) % 65536
    some (clockwise ++ [nhbr - 1, top_below])
  else
    none

/-- One iteration of the ring loop of `generateNeighbors` (`ring` runs from
`3` to `base_size`).  `ring_size - 1` mirrors the `uint16_t` subtraction: a
wrap can only happen when `ring_size = 0`, and then the inner loop is empty,
so `last` is never consulted.  The `none` case of `cellPushes` is the throw
branch of the C++ code; it is proven unreachable (claim C9). -/
def ringPass (nb : List (List Nat)) (ring : Nat) : List (List Nat) :=
  let top := topNode ring
  let right := rightNode ring
  let left := leftNode ring
  let ring_size := topNode ((ring + 1) % 65536)
  let last := ring_size - 1
  let top_below := topNode (ring - 1)
  let right_below := rightNode (ring - 1)
  let left_below := leftNode (ring - 1)
  (List.range' top (ring_size - top)).foldl
    (fun acc cell =>
      match cellPushes top right left top_below right_below left_below last cell with
      | some vs => pushAt acc cell vs
      | none => acc)
    nb

/-- The directed phase of `generateNeighbors`: seed the inner triangle and
run the ring loop for `ring = 3, …, base_size`. -/
def generateDirected (base_size : Nat) : List (List Nat) :=
  let board_size := boardSize base_size
  let nb := List.replicate board_size ([] : List Nat)
  let nb := pushAt nb 0 [1]
  let nb := pushAt nb 1 [2]
  let nb := pushAt nb 2 [0]
  (List.range' 3 (base_size - 2)).foldl ringPass nb

/-- The symmetrisation pass of `generateNeighbors`: for every `i` and every
`j ∈ neighbors.at(i)` (reading the directed list), push `i` onto
`symmetric.at(j)`, starting from a copy of the directed list. -/
def symmetrize (nb : List (List Nat)) : List (List Nat) :=
  (List.range nb.length).foldl
    (fun acc i => (nb.getD i []).foldl (fun acc2 j => pushAt acc2 j [i]) acc)
    nb

/-- Insertion of a value into an ascending list (helper of `sortNat`). -/
def insertSorted (x : Nat) : List Nat → List Nat
  | [] => [x]
  | y :: ys => if x ≤ y then x :: y :: ys else y :: insertSorted x ys

/-- Model of `std::sort` with `operator<` on the 16-bit node values:
ascending insertion sort.  On `Nat` keys the ascending reordering of a list
is unique (equal keys are indistinguishable), so any comparison sort —
`std::sort` included — produces this list. -/
def sortNat (l : List Nat) : List Nat :=
  l.foldr insertSorted []

/-- The final `std::sort` over each neighbour list. -/
def sortEach (nb : List (List Nat)) : List (List Nat) :=
  nb.map (fun l => sortNat l)

/-- Embedding of `generateNeighbors(base_size)`: directed phase, symmetrisation, then
per-node sorting.  (`getNeighbors` only memoises this computation in a
process-wide cache, which does not change the produced value.) -/
def generateNeighbors (base_size : Nat) : List (List Nat) :=
  sortEach (symmetrize (generateDirected base_size))

/-- The `GeodesicYPlayer` enum. -/
inductive GeodesicYPlayer where
  | kPlayer1
  | kPlayer2
  | kPlayerNone
deriving DecidableEq, Repr

/-- Embedding of `GeodesicYState::Cell`: owner, union-find parent, and (valid at group
leaders only) group size and aggregated edge mask.  `size` is a `uint16_t`
and `edge` a `uint8_t`. -/
structure Cell where
  player : GeodesicYPlayer
  parent : Nat
  size : Nat
  edge : Nat
deriving DecidableEq, Repr

/-- Default cell, returned by the model on out-of-range reads (where the
C++ `board_.at` would throw).  Its owner is `kPlayerNone`, so an
out-of-range neighbour index can never trigger a group join. -/
instance : Inhabited Cell := ⟨⟨.kPlayerNone, 0, 1, 0⟩⟩

/-- Read of `board_.at(i)`. -/
def getCell (board : List Cell) (i : Nat) : Cell :=
  board.getD i default

/-- Write of `board_.at(i) = c`; a no-op out of range, where `at` throws. -/
def setCell (board : List Cell) (i : Nat) (c : Cell) : List Cell :=
  board.set i c

/-- Write of `board_.at(i).player = p`. -/
def setPlayer (board : List Cell) (i : Nat) (p : GeodesicYPlayer) : List Cell :=
  setCell board i { getCell board i with player := p }

/-- Write of `board_.at(i).parent = q`. -/
def setParent (board : List Cell) (i q : Nat) : List Cell :=
  setCell board i { getCell board i with parent := q }

/-- Write of `board_.at(i).size = n`. -/
def setSize (board : List Cell) (i n : Nat) : List Cell :=
  setCell board i { getCell board i with size := n }

/-- Write of `board_.at(i).edge = e`. -/
def setEdge (board : List Cell) (i e : Nat) : List Cell :=
  setCell board i { getCell board i with edge := e }

/-- Shorthand for `board_.at(i).parent`. -/
def parentOf (board : List Cell) (i : Nat) : Nat :=
  (getCell board i).parent

/-- The do-while loop of `FindGroupLeader`: starting from
`parent = board_.at(cell).parent`, repeatedly step to
`board_.at(parent).parent` until a self-parented node is reached.  The C++
loop has no fuel; the model passes `board.length` as fuel, which is proven
sufficient on reachable states (claim C4). -/
def chase (board : List Cell) : Nat → Nat → Nat
  | 0, p => parentOf board p
  | fuel + 1, p =>
      let q := parentOf board p
      if parentOf board q = q then q else chase board fuel q

/-- Embedding of `GeodesicYState::FindGroupLeader`: resolve `cell` to its group leader,
compressing the path of `cell` itself (the single `board_.at(cell).parent =
parent` write). -/
def findGroupLeader (board : List Cell) (cell : Nat) : Nat × List Cell :=
  let parent := parentOf board cell
  if parent = cell then (cell, board)
  else
    let leader := chase board board.length parent
    (leader, setParent board cell leader)

/-- Embedding of `GeodesicYState::JoinGroups`: union-by-size merge of the groups of
`cell_a` and `cell_b`, returning `true` when they were already the same
group.  The `size +=` is a `uint16_t` addition. -/
def joinGroups (board : List Cell) (cell_a cell_b : Nat) : Bool × List Cell :=
  let fa := findGroupLeader board cell_a
  let fb := findGroupLeader fa.2 cell_b
  let b2 := fb.2
  if fa.1 = fb.1 then (true, b2)
  else
    let leader_a := if (getCell b2 fa.1).size < (getCell b2 fb.1).size then fb.1 else fa.1
    let leader_b := if (getCell b2 fa.1).size < (getCell b2 fb.1).size then fa.1 else fb.1
    let b3 := setParent b2 leader_b leader_a
    let b4 := setSize b3 leader_a (((getCell b3 leader_a).size + (getCell b3 leader_b).size) % 65536)
    let b5 := setEdge b4 leader_a ((getCell b4 leader_a).edge ||| (getCell b4 leader_b).edge)
    (false, b5)

/-- The board of a fresh `GeodesicYState` with the default parameters
(`starting_board = ""`): every cell is `Cell(kPlayerNone, i, getEdge(i,
base_size))`, i.e. empty, self-parented, of size 1. -/
def initialBoard (base_size : Nat) : List Cell :=
  (List.range (boardSize base_size)).map
    (fun i => ⟨.kPlayerNone, i, 1, getEdge i base_size⟩)

/-- Embedding of `GeodesicYState`: board, turn and outcome state, move counter, last
move, and the host framework's `history_` of applied actions (the recorded
player of each entry is ignored by `UndoAction`, so history is modelled as
the list of actions). -/
structure GState where
  base_size : Nat
  neighbors : List (List Nat)
  board : List Cell
  current_player : GeodesicYPlayer
  outcome : GeodesicYPlayer
  moves_made : Nat
  last_move : Nat
  history : List Nat
deriving DecidableEq, Repr

/-- The `GeodesicYState` constructor with the default parameters
(`starting_player = "black"` i.e. `kPlayer1`, `starting_board = ""`, whose
`PlayCell` loop places nothing). -/
def initialState (base_size : Nat) : GState :=
  { base_size := base_size
    neighbors := generateNeighbors base_size
    board := initialBoard base_size
    current_player := .kPlayer1
    outcome := .kPlayerNone
    moves_made := 0
    last_move := boardSize base_size
    history := [] }

/-- Embedding of `IsTerminal()`: the outcome is decided. -/
def isTerminal (s : GState) : Bool :=
  match s.outcome with
  | .kPlayerNone => false
  | _ => true

/-- Embedding of `GeodesicYState::DoApplyAction` (no history append): place the stone,
join with every same-player neighbour, then check whether the placed
stone's group leader touches all three edges.  The two `SPIEL_CHECK`s at
the top abort the C++ program when violated and are not part of the state
transformation. -/
def doApplyAction (s : GState) (action : Nat) : GState :=
  let b0 := setPlayer s.board action s.current_player
  let b1 := (s.neighbors.getD action []).foldl
    (fun bd nhbr =>
      if s.current_player = (getCell bd nhbr).player then (joinGroups bd action nhbr).2 else bd)
    b0
  let fl := findGroupLeader b1 action
  { s with
    board := fl.2
    outcome := if (getCell fl.2 fl.1).edge = (kRight ||| kBottom ||| kLeft) then s.current_player else s.outcome
    moves_made := (s.moves_made + 1) % 65536
    last_move := action
    current_player := if s.current_player = .kPlayer1 then .kPlayer2 else .kPlayer1 }

/-- Embedding of `State::ApplyAction` of the host framework: `DoApplyAction` plus the
`history_` append. -/
def applyAction (s : GState) (action : Nat) : GState :=
  { doApplyAction s action with history := s.history ++ [action] }

/-- Embedding of `LegalActions()`: every empty cell in increasing index order; empty
once terminal. -/
def legalActions (s : GState) : List Nat :=
  if isTerminal s then []
  else (List.range s.board.length).filter
    (fun cell => (getCell s.board cell).player == .kPlayerNone)

/-- Embedding of `Returns()` as an exact pair (the C++ doubles take only the integral
values `1`, `-1`, `0` here). -/
def returnsOf (s : GState) : Int × Int :=
  match s.outcome with
  | .kPlayer1 => (1, -1)
  | .kPlayer2 => (-1, 1)
  | .kPlayerNone => (0, 0)

/-- Embedding of `GeodesicYState::ResetBoard` with the default parameters: restore the
starting player, clear the outcome and counters, and re-initialise every
cell of the board (the `starting_board_` replay loop places nothing). -/
def resetBoard (s : GState) : GState :=
  { s with
    current_player := .kPlayer1
    outcome := .kPlayerNone
    moves_made := 0
    last_move := boardSize s.base_size
    board := (List.range s.board.length).map
      (fun i => ⟨.kPlayerNone, i, 1, getEdge i s.base_size⟩) }

/-- Embedding of `GeodesicYState::UndoAction`: pop the last history entry, reset the
board, and replay every remaining recorded action through
`DoApplyAction`. -/
def undoAction (s : GState) : GState :=
  let h := s.history.dropLast
  h.foldl doApplyAction (resetBoard { s with history := h })

/-- Fold of `applyAction` over a list of actions. -/
def applyActionList (s : GState) (acts : List Nat) : GState :=
  acts.foldl applyAction s

/-- Fold of `doApplyAction` over a list of actions (the replay loop of
`UndoAction`). -/
def doApplyList (s : GState) (acts : List Nat) : GState :=
  acts.foldl doApplyAction s

/-- Iterated `undoAction`. -/
def undoIter : Nat → GState → GState
  | 0, s => s
  | k + 1, s => undoIter k (undoAction s)

/-- An action sequence is legal from `s` when each action is a member of
`legalActions` of the state it is applied to. -/
def legalSeqB (s : GState) : List Nat → Bool
  | [] => true
  | a :: rest => decide (a ∈ legalActions s) && legalSeqB (applyAction s a) rest

/-- States reachable from the initial state by legal `ApplyAction` calls
and by `UndoAction` calls with nonempty history (the preconditions the C++
engine enforces by aborting). -/
inductive Reachable (base_size : Nat) : GState → Prop
  | init : Reachable base_size (initialState base_size)
  | step {s : GState} {a : Nat} : Reachable base_size s → a ∈ legalActions s →
      Reachable base_size (applyAction s a)
  | undo {s : GState} : Reachable base_size s → s.history ≠ [] →
      Reachable base_size (undoAction s)

/-! ### Cell access lemmas -/

theorem length_setCell (b : List Cell) (i : Nat) (c : Cell) :
    (setCell b i c).length = b.length :=
  List.length_set ..

theorem getCell_setCell (b : List Cell) (i : Nat) (c : Cell) (j : Nat) :
    getCell (setCell b i c) j = if i = j ∧ i < b.length then c else getCell b j := by
  unfold getCell setCell
  simp only [List.getD_eq_getElem?_getD, List.getElem?_set]
  by_cases h1 : i = j
  · subst h1
    by_cases h2 : i < b.length
    · simp [h2]
    · have : b.length ≤ i := Nat.le_of_not_lt h2
      simp [h2, List.getElem?_eq_none this]
  · simp [h1]

theorem length_setPlayer (b : List Cell) (i : Nat) (p : GeodesicYPlayer) :
    (setPlayer b i p).length = b.length := length_setCell ..

theorem length_setParent (b : List Cell) (i q : Nat) :
    (setParent b i q).length = b.length := length_setCell ..

theorem length_setSize (b : List Cell) (i n : Nat) :
    (setSize b i n).length = b.length := length_setCell ..

theorem length_setEdge (b : List Cell) (i e : Nat) :
    (setEdge b i e).length = b.length := length_setCell ..

theorem getCell_setPlayer (b : List Cell) (i : Nat) (p : GeodesicYPlayer) (j : Nat) :
    getCell (setPlayer b i p) j =
      if i = j ∧ i < b.length then { getCell b i with player := p } else getCell b j :=
  getCell_setCell ..

theorem getCell_setParent (b : List Cell) (i q j : Nat) :
    getCell (setParent b i q) j =
      if i = j ∧ i < b.length then { getCell b i with parent := q } else getCell b j :=
  getCell_setCell ..

theorem getCell_setSize (b : List Cell) (i n j : Nat) :
    getCell (setSize b i n) j =
      if i = j ∧ i < b.length then { getCell b i with size := n } else getCell b j :=
  getCell_setCell ..

theorem getCell_setEdge (b : List Cell) (i e j : Nat) :
    getCell (setEdge b i e) j =
      if i = j ∧ i < b.length then { getCell b i with edge := e } else getCell b j :=
  getCell_setCell ..

theorem player_setParent (b : List Cell) (i q j : Nat) :
    (getCell (setParent b i q) j).player = (getCell b j).player := by
  rw [getCell_setParent]; split_ifs with h
  · rcases h with ⟨rfl, -⟩; rfl
  · rfl

theorem size_setParent (b : List Cell) (i q j : Nat) :
    (getCell (setParent b i q) j).size = (getCell b j).size := by
  rw [getCell_setParent]; split_ifs with h
  · rcases h with ⟨rfl, -⟩; rfl
  · rfl

theorem edge_setParent (b : List Cell) (i q j : Nat) :
    (getCell (setParent b i q) j).edge = (getCell b j).edge := by
  rw [getCell_setParent]; split_ifs with h
  · rcases h with ⟨rfl, -⟩; rfl
  · rfl

theorem parentOf_setParent (b : List Cell) (i q j : Nat) :
    parentOf (setParent b i q) j = if i = j ∧ i < b.length then q else parentOf b j := by
  unfold parentOf; rw [getCell_setParent]; split_ifs with h
  · rfl
  · rfl

theorem parentOf_setPlayer (b : List Cell) (i : Nat) (p : GeodesicYPlayer) (j : Nat) :
    parentOf (setPlayer b i p) j = parentOf b j := by
  unfold parentOf; rw [getCell_setPlayer]; split_ifs with h
  · rcases h with ⟨rfl, -⟩; rfl
  · rfl

theorem size_setPlayer (b : List Cell) (i : Nat) (p : GeodesicYPlayer) (j : Nat) :
    (getCell (setPlayer b i p) j).size = (getCell b j).size := by
  rw [getCell_setPlayer]; split_ifs with h
  · rcases h with ⟨rfl, -⟩; rfl
  · rfl

theorem edge_setPlayer (b : List Cell) (i : Nat) (p : GeodesicYPlayer) (j : Nat) :
    (getCell (setPlayer b i p) j).edge = (getCell b j).edge := by
  rw [getCell_setPlayer]; split_ifs with h
  · rcases h with ⟨rfl, -⟩; rfl
  · rfl

theorem player_setPlayer (b : List Cell) (i : Nat) (p : GeodesicYPlayer) (j : Nat) :
    (getCell (setPlayer b i p) j).player =
      if i = j ∧ i < b.length then p else (getCell b j).player := by
  rw [getCell_setPlayer]; split_ifs with h
  · rfl
  · rfl

theorem player_setSize (b : List Cell) (i n j : Nat) :
    (getCell (setSize b i n) j).player = (getCell b j).player := by
  rw [getCell_setSize]; split_ifs with h
  · rcases h with ⟨rfl, -⟩; rfl
  · rfl

theorem parentOf_setSize (b : List Cell) (i n j : Nat) :
    parentOf (setSize b i n) j = parentOf b j := by
  unfold parentOf; rw [getCell_setSize]; split_ifs with h
  · rcases h with ⟨rfl, -⟩; rfl
  · rfl

theorem edge_setSize (b : List Cell) (i n j : Nat) :
    (getCell (setSize b i n) j).edge = (getCell b j).edge := by
  rw [getCell_setSize]; split_ifs with h
  · rcases h with ⟨rfl, -⟩; rfl
  · rfl

theorem size_setSize (b : List Cell) (i n j : Nat) :
    (getCell (setSize b i n) j).size =
      if i = j ∧ i < b.length then n else (getCell b j).size := by
  rw [getCell_setSize]; split_ifs with h
  · rfl
  · rfl

theorem player_setEdge (b : List Cell) (i e j : Nat) :
    (getCell (setEdge b i e) j).player = (getCell b j).player := by
  rw [getCell_setEdge]; split_ifs with h
  · rcases h with ⟨rfl, -⟩; rfl
  · rfl

theorem parentOf_setEdge (b : List Cell) (i e j : Nat) :
    parentOf (setEdge b i e) j = parentOf b j := by
  unfold parentOf; rw [getCell_setEdge]; split_ifs with h
  · rcases h with ⟨rfl, -⟩; rfl
  · rfl

theorem size_setEdge (b : List Cell) (i e j : Nat) :
    (getCell (setEdge b i e) j).size = (getCell b j).size := by
  rw [getCell_setEdge]; split_ifs with h
  · rcases h with ⟨rfl, -⟩; rfl
  · rfl

theorem edge_setEdge (b : List Cell) (i e j : Nat) :
    (getCell (setEdge b i e) j).edge =
      if i = j ∧ i < b.length then e else (getCell b j).edge := by
  rw [getCell_setEdge]; split_ifs with h
  · rfl
  · rfl

/-! ### Parent chains -/

/-- Iteration (`k`-fold)  of the parent pointer. -/
def iterP (b : List Cell) : Nat → Nat → Nat
  | 0, c => c
  | k + 1, c => iterP b k (parentOf b c)

/-- A cell is a group leader when it is its own parent. -/
def isLeader (b : List Cell) (c : Nat) : Prop :=
  parentOf b c = c

instance (b : List Cell) (c : Nat) : Decidable (isLeader b c) :=
  inferInstanceAs (Decidable (_ = _))

theorem iterP_add (b : List Cell) (m n c : Nat) :
    iterP b (m + n) c = iterP b m (iterP b n c) := by
  induction n generalizing c with
  | zero => rfl
  | succ n ih =>
      have : m + (n + 1) = (m + n) + 1 := rfl
      rw [this, iterP, iterP, ih]

theorem iterP_leader_fix (b : List Cell) (k x : Nat) (h : isLeader b x) :
    iterP b k x = x := by
  induction k with
  | zero => rfl
  | succ k ih => rw [iterP, h]; exact ih

theorem iterP_lt (b : List Cell) (hlt : ∀ x, x < b.length → parentOf b x < b.length)
    (k c : Nat) (hc : c < b.length) : iterP b k c < b.length := by
  induction k generalizing c with
  | zero => exact hc
  | succ k ih => exact ih _ (hlt _ hc)

theorem iterP_congr (b b' : List Cell) (h : ∀ j, parentOf b' j = parentOf b j)
    (k c : Nat) : iterP b' k c = iterP b k c := by
  induction k generalizing c with
  | zero => rfl
  | succ k ih => rw [iterP, iterP, h]; exact ih _

theorem player_iterP (b : List Cell)
    (hlt : ∀ x, x < b.length → parentOf b x < b.length)
    (hchain : ∀ x, x < b.length → (getCell b x).player ≠ .kPlayerNone →
      (getCell b (parentOf b x)).player = (getCell b x).player)
    (k c : Nat) (hc : c < b.length) (hocc : (getCell b c).player ≠ .kPlayerNone) :
    (getCell b (iterP b k c)).player = (getCell b c).player := by
  induction k generalizing c with
  | zero => rfl
  | succ k ih =>
      rw [iterP]
      have h1 : (getCell b (parentOf b c)).player = (getCell b c).player := hchain c hc hocc
      rw [ih (parentOf b c) (hlt c hc) (by rw [h1]; exact hocc), h1]

/-- Pigeonhole: a chain that terminates at all terminates within
`b.length` steps. -/
theorem term_bound (b : List Cell)
    (hlt : ∀ x, x < b.length → parentOf b x < b.length)
    (c : Nat) (hc : c < b.length) (h : ∃ k, isLeader b (iterP b k c)) :
    ∃ k, k ≤ b.length ∧ isLeader b (iterP b k c) := by
  classical
  set k0 := Nat.find h with hk0def
  have hk0 : isLeader b (iterP b k0 c) := Nat.find_spec h
  by_cases hle : k0 ≤ b.length
  · exact ⟨k0, hle, hk0⟩
  exfalso
  have key : ∀ i j, i < j → j ≤ k0 → iterP b i c = iterP b j c → False := by
    intro i j hij hjk heq
    have h1 : iterP b k0 c = iterP b ((k0 - j) + i) c := by
      have e1 : k0 = (k0 - j) + j := by omega
      conv_lhs => rw [e1]
      rw [iterP_add, ← heq, ← iterP_add]
    have h2 : isLeader b (iterP b ((k0 - j) + i) c) := h1 ▸ hk0
    exact Nat.find_min h (by omega) h2
  have hinj : Set.InjOn (fun i => iterP b i c) ↑(Finset.range (k0 + 1)) := by
    intro i hi j hj hij
    simp only [Finset.coe_range, Set.mem_Iio] at hi hj
    rcases Nat.lt_trichotomy i j with h' | h' | h'
    · exact absurd hij (by intro he; exact key i j h' (by omega) he)
    · exact h'
    · exact absurd hij.symm (by intro he; exact key j i h' (by omega) he)
  have himage : (Finset.range (k0 + 1)).image (fun i => iterP b i c) ⊆
      Finset.range b.length := by
    intro x hx
    simp only [Finset.mem_image, Finset.mem_range] at hx ⊢
    obtain ⟨i, -, rfl⟩ := hx
    exact iterP_lt b hlt i c hc
  have hcard := Finset.card_le_card himage
  rw [Finset.card_image_of_injOn hinj, Finset.card_range, Finset.card_range] at hcard
  omega

theorem chase_spec (b : List Cell) (fuel p : Nat)
    (h : ∃ j, j ≤ fuel ∧ isLeader b (iterP b (j + 1) p)) :
    isLeader b (chase b fuel p) ∧ ∃ m, chase b fuel p = iterP b (m + 1) p := by
  induction fuel generalizing p with
  | zero =>
      obtain ⟨j, hj, hl⟩ := h
      have hj0 : j = 0 := Nat.le_zero.mp hj
      subst hj0
      exact ⟨hl, 0, rfl⟩
  | succ fuel ih =>
      have hdef : chase b (fuel + 1) p =
          if parentOf b (parentOf b p) = parentOf b p then parentOf b p
          else chase b fuel (parentOf b p) := rfl
      by_cases hq : parentOf b (parentOf b p) = parentOf b p
      · rw [hdef, if_pos hq]
        exact ⟨hq, 0, rfl⟩
      · have hstep : chase b (fuel + 1) p = chase b fuel (parentOf b p) := by
          rw [hdef, if_neg hq]
        obtain ⟨j, hj, hl⟩ := h
        have hj' : ∃ j', j' ≤ fuel ∧ isLeader b (iterP b (j' + 1) (parentOf b p)) := by
          match j, hj, hl with
          | 0, _, hl =>
              exact absurd (show isLeader b (parentOf b p) from hl) hq
          | j' + 1, hj, hl =>
              refine ⟨j', by omega, ?_⟩
              have : iterP b (j' + 1 + 1) p = iterP b (j' + 1) (parentOf b p) := rfl
              rw [← this]; exact hl
        obtain ⟨hl', m, hm⟩ := ih (parentOf b p) hj'
        rw [hstep]
        refine ⟨hl', m + 1, ?_⟩
        rw [hm]; rfl

/-- Full specification of `findGroupLeader` on a board whose parent chain
from `c` terminates: the returned node is a leader lying on `c`'s chain,
and the returned board differs from the input at most in the parent
pointer of `c`, which now points at that leader. -/
structure FGLSpec (b : List Cell) (c : Nat) (r : Nat × List Cell) : Prop where
  leader_old : isLeader b r.1
  on_chain : ∃ m, r.1 = iterP b m c
  lt : r.1 < b.length
  len : r.2.length = b.length
  player_eq : ∀ j, (getCell r.2 j).player = (getCell b j).player
  size_eq : ∀ j, (getCell r.2 j).size = (getCell b j).size
  edge_eq : ∀ j, (getCell r.2 j).edge = (getCell b j).edge
  parent_other : ∀ j, j ≠ c → parentOf r.2 j = parentOf b j
  parent_c : parentOf r.2 c = r.1
  leader_new : isLeader r.2 r.1

theorem findGroupLeader_spec (b : List Cell) (c : Nat)
    (hlt : ∀ x, x < b.length → parentOf b x < b.length)
    (hc : c < b.length) (hterm : ∃ k, isLeader b (iterP b k c)) :
    FGLSpec b c (findGroupLeader b c) := by
  unfold findGroupLeader
  by_cases hp : parentOf b c = c
  · simp only [hp, if_pos]
    exact {
      leader_old := hp
      on_chain := ⟨0, rfl⟩
      lt := hc
      len := rfl
      player_eq := fun j => rfl
      size_eq := fun j => rfl
      edge_eq := fun j => rfl
      parent_other := fun j _ => rfl
      parent_c := hp
      leader_new := hp }
  · simp only [hp, if_neg, if_false]
    obtain ⟨k, hk, hkl⟩ := term_bound b hlt c hc hterm
    have hchase : ∃ j, j ≤ b.length ∧ isLeader b (iterP b (j + 1) (parentOf b c)) := by
      refine ⟨k, hk, ?_⟩
      have e1 : iterP b (k + 1 + 1) c = iterP b (k + 1) (parentOf b c) := rfl
      have e2 : iterP b (k + 1 + 1) c = iterP b k c := by
        have e3 : k + 1 + 1 = 2 + k := by omega
        rw [e3, iterP_add, iterP_leader_fix b 2 _ hkl]
      rw [← e1, e2]; exact hkl
    obtain ⟨hlead, m, hm⟩ := chase_spec b b.length (parentOf b c) hchase
    set L := chase b b.length (parentOf b c) with hLdef
    have honc : L = iterP b (m + 2) c := by
      rw [hm]; rfl
    have hLlt : L < b.length := by
      rw [honc]; exact iterP_lt b hlt _ c hc
    have hLne : L ≠ c := by
      intro he
      exact hp (by rw [← he] at hp ⊢; exact hlead)
    exact {
      leader_old := hlead
      on_chain := ⟨m + 2, honc⟩
      lt := hLlt
      len := length_setParent ..
      player_eq := fun j => player_setParent ..
      size_eq := fun j => size_setParent ..
      edge_eq := fun j => edge_setParent ..
      parent_other := fun j hj => by
        rw [parentOf_setParent, if_neg (by rintro ⟨h1, -⟩; exact hj h1.symm)]
      parent_c := by
        rw [parentOf_setParent, if_pos ⟨rfl, hc⟩]
      leader_new := by
        show parentOf _ L = L
        rw [parentOf_setParent, if_neg (by rintro ⟨h1, -⟩; exact hLne h1.symm)]
        exact hlead }

/-! ### The board invariant -/

/-- Re-pointing one cell's parent at a node that is a leader of the new
board preserves termination of every parent chain. -/
theorem term_update (b b' : List Cell) (cc L : Nat)
    (hother : ∀ j, j ≠ cc → parentOf b' j = parentOf b j)
    (hcc : parentOf b' cc = L)
    (hL : isLeader b' L) :
    ∀ k x, isLeader b (iterP b k x) → ∃ k', isLeader b' (iterP b' k' x) := by
  intro k
  induction k using Nat.strong_induction_on with
  | _ k ih =>
    intro x hx
    by_cases hxc : x = cc
    · refine ⟨1, ?_⟩
      show isLeader b' (parentOf b' x)
      rw [hxc, hcc]
      exact hL
    · by_cases hlead : parentOf b x = x
      · refine ⟨0, ?_⟩
        show isLeader b' x
        unfold isLeader
        rw [hother x hxc]
        exact hlead
      · match k, hx with
        | 0, hx => exact absurd hx hlead
        | k0 + 1, hx =>
            have hx' : isLeader b (iterP b k0 (parentOf b x)) := hx
            obtain ⟨k', hk'⟩ := ih k0 (by omega) (parentOf b x) hx'
            refine ⟨k' + 1, ?_⟩
            show isLeader b' (iterP b' k' (parentOf b' x))
            rw [hother x hxc]
            exact hk'

/-- Termination transfers to a board with identical parent pointers. -/
theorem term_congr (b b' : List Cell) (h : ∀ j, parentOf b' j = parentOf b j) (x : Nat)
    (hx : ∃ k, isLeader b (iterP b k x)) : ∃ k, isLeader b' (iterP b' k x) := by
  obtain ⟨k, hk⟩ := hx
  refine ⟨k, ?_⟩
  unfold isLeader at *
  rw [iterP_congr b b' h, h]
  exact hk

/-- The invariant maintained by the engine on the cell array: parents are
in range; empty cells are untouched singleton leaders carrying their
intrinsic edge mask; parent chains stay within the owner's stones and
terminate; and the sizes recorded at the leaders total the board size. -/
structure BoardInv (base_size : Nat) (b : List Cell) : Prop where
  len_le : b.length ≤ 65535
  parent_lt : ∀ c, c < b.length → parentOf b c < b.length
  empty_cell : ∀ c, c < b.length → (getCell b c).player = .kPlayerNone →
      parentOf b c = c ∧ (getCell b c).size = 1 ∧ (getCell b c).edge = getEdge c base_size
  chain_player : ∀ c, c < b.length → (getCell b c).player ≠ .kPlayerNone →
      (getCell b (parentOf b c)).player = (getCell b c).player
  chain_term : ∀ c, c < b.length → ∃ k, isLeader b (iterP b k c)
  size_sum : ((Finset.range b.length).filter (fun l => parentOf b l = l)).sum
      (fun l => (getCell b l).size) = b.length

theorem findGroupLeader_inv (base_size : Nat) (b : List Cell) (inv : BoardInv base_size b)
    (c : Nat) (hc : c < b.length) :
    BoardInv base_size (findGroupLeader b c).2 ∧ FGLSpec b c (findGroupLeader b c) := by
  have spec := findGroupLeader_spec b c inv.parent_lt hc (inv.chain_term c hc)
  refine ⟨?_, spec⟩
  have hr1c : (findGroupLeader b c).1 = c ↔ parentOf b c = c := by
    constructor
    · intro h
      have := spec.leader_old
      rw [h] at this
      exact this
    · intro h
      obtain ⟨m, hm⟩ := spec.on_chain
      rw [hm, iterP_leader_fix b m c h]
  exact {
    len_le := by rw [spec.len]; exact inv.len_le
    parent_lt := by
      intro x hx
      rw [spec.len] at hx
      by_cases hxc : x = c
      · subst hxc
        rw [spec.len, spec.parent_c]
        exact spec.lt
      · rw [spec.len, spec.parent_other x hxc]
        exact inv.parent_lt x hx
    empty_cell := by
      intro x hx hemp
      rw [spec.len] at hx
      rw [spec.player_eq] at hemp
      obtain ⟨h1, h2, h3⟩ := inv.empty_cell x hx hemp
      refine ⟨?_, by rw [spec.size_eq]; exact h2, by rw [spec.edge_eq]; exact h3⟩
      by_cases hxc : x = c
      · subst hxc
        rw [spec.parent_c, hr1c.mpr h1]
      · rw [spec.parent_other x hxc]
        exact h1
    chain_player := by
      intro x hx hocc
      rw [spec.len] at hx
      rw [spec.player_eq] at hocc
      by_cases hxc : x = c
      · subst hxc
        rw [spec.parent_c, spec.player_eq, spec.player_eq]
        obtain ⟨m, hm⟩ := spec.on_chain
        rw [hm]
        exact player_iterP b inv.parent_lt inv.chain_player m x hx hocc
      · rw [spec.parent_other x hxc, spec.player_eq, spec.player_eq]
        exact inv.chain_player x hx hocc
    chain_term := by
      intro x hx
      rw [spec.len] at hx
      obtain ⟨k, hk⟩ := inv.chain_term x hx
      exact term_update b (findGroupLeader b c).2 c (findGroupLeader b c).1
        spec.parent_other spec.parent_c spec.leader_new k x hk
    size_sum := by
      rw [spec.len]
      have hfilter : (Finset.range b.length).filter
            (fun l => parentOf (findGroupLeader b c).2 l = l) =
          (Finset.range b.length).filter (fun l => parentOf b l = l) := by
        apply Finset.filter_congr
        intro x _
        by_cases hxc : x = c
        · subst hxc
          simp only [spec.parent_c, eq_iff_iff]
          exact hr1c
        · simp only [spec.parent_other x hxc]
      rw [hfilter]
      exact (Finset.sum_congr rfl (fun x _ => spec.size_eq x)).trans inv.size_sum }

theorem setPlayer_inv (base_size : Nat) (b : List Cell) (inv : BoardInv base_size b)
    (c : Nat) (hc : c < b.length)
    (hempty : (getCell b c).player = .kPlayerNone)
    (p : GeodesicYPlayer) (hp : p ≠ .kPlayerNone) :
    BoardInv base_size (setPlayer b c p) := by
  have hpar : ∀ j, parentOf (setPlayer b c p) j = parentOf b j := fun j =>
    parentOf_setPlayer ..
  have hplay : ∀ j, (getCell (setPlayer b c p) j).player =
      if c = j ∧ c < b.length then p else (getCell b j).player := fun j =>
    player_setPlayer ..
  exact {
    len_le := by rw [length_setPlayer]; exact inv.len_le
    parent_lt := by
      intro x hx
      rw [length_setPlayer] at hx ⊢
      rw [hpar]
      exact inv.parent_lt x hx
    empty_cell := by
      intro x hx hemp
      rw [length_setPlayer] at hx
      rw [hplay] at hemp
      by_cases hxc : c = x
      · rw [if_pos ⟨hxc, hc⟩] at hemp
        exact absurd hemp hp
      · rw [if_neg (by rintro ⟨h1, -⟩; exact hxc h1)] at hemp
        obtain ⟨h1, h2, h3⟩ := inv.empty_cell x hx hemp
        exact ⟨by rw [hpar]; exact h1,
          by rw [size_setPlayer]; exact h2,
          by rw [edge_setPlayer]; exact h3⟩
    chain_player := by
      intro x hx hocc
      rw [length_setPlayer] at hx
      rw [hpar]
      by_cases hxc : c = x
      · subst hxc
        have h1 : parentOf b c = c := (inv.empty_cell c hc hempty).1
        rw [h1]
      · rw [hplay] at hocc
        rw [if_neg (by rintro ⟨h1, -⟩; exact hxc h1)] at hocc
        have h2 : parentOf b x ≠ c := by
          intro he
          have h3 := inv.chain_player x hx hocc
          rw [he, hempty] at h3
          exact hocc h3.symm
        rw [hplay, hplay, if_neg (by rintro ⟨h1, -⟩; exact h2 h1.symm),
          if_neg (by rintro ⟨h1, -⟩; exact hxc h1)]
        exact inv.chain_player x hx hocc
    chain_term := by
      intro x hx
      rw [length_setPlayer] at hx
      exact term_congr b _ hpar x (inv.chain_term x hx)
    size_sum := by
      rw [length_setPlayer]
      have hfilter : (Finset.range b.length).filter
            (fun l => parentOf (setPlayer b c p) l = l) =
          (Finset.range b.length).filter (fun l => parentOf b l = l) := by
        apply Finset.filter_congr
        intro x _
        simp only [hpar]
      rw [hfilter]
      exact (Finset.sum_congr rfl (fun x _ => by rw [size_setPlayer])).trans inv.size_sum }

/-- Invariant preservation for the three mutations of the merge branch of
`JoinGroups`: re-parent the loser under the winner, add the sizes, and OR
the edge masks. -/
theorem merge_step_inv (base_size : Nat) (b2 : List Cell) (inv2 : BoardInv base_size b2)
    (w l : Nat) (hw : w < b2.length) (hl : l < b2.length) (hne : w ≠ l)
    (hwlead : isLeader b2 w) (hllead : isLeader b2 l)
    (hpw : (getCell b2 w).player ≠ .kPlayerNone)
    (hpl : (getCell b2 l).player = (getCell b2 w).player)
    (b3 b4 b5 : List Cell)
    (hb3 : b3 = setParent b2 l w)
    (hb4 : b4 = setSize b3 w (((getCell b3 w).size + (getCell b3 l).size) % 65536))
    (hb5 : b5 = setEdge b4 w ((getCell b4 w).edge ||| (getCell b4 l).edge)) :
    BoardInv base_size b5 ∧ b5.length = b2.length ∧
      (∀ j, (getCell b5 j).player = (getCell b2 j).player) := by
  have hlen : b5.length = b2.length := by
    rw [hb5, hb4, hb3, length_setEdge, length_setSize, length_setParent]
  have hplay : ∀ j, (getCell b5 j).player = (getCell b2 j).player := by
    intro j
    rw [hb5, hb4, hb3, player_setEdge, player_setSize, player_setParent]
  have hpar : ∀ j, parentOf b5 j = if l = j then w else parentOf b2 j := by
    intro j
    rw [hb5, hb4, hb3, parentOf_setEdge, parentOf_setSize, parentOf_setParent]
    by_cases hj : l = j
    · rw [if_pos ⟨hj, hl⟩, if_pos hj]
    · rw [if_neg (by rintro ⟨h1, -⟩; exact hj h1), if_neg hj]
  have hsize : ∀ j, (getCell b5 j).size =
      if w = j then ((getCell b2 w).size + (getCell b2 l).size) % 65536
      else (getCell b2 j).size := by
    intro j
    rw [hb5, size_setEdge, hb4, size_setSize]
    simp only [hb3, length_setParent, size_setParent]
    by_cases hj : w = j
    · rw [if_pos ⟨hj, hw⟩, if_pos hj]
    · rw [if_neg (by rintro ⟨h1, -⟩; exact hj h1), if_neg hj]
  -- the size bookkeeping
  have hwmem : w ∈ (Finset.range b2.length).filter (fun x => parentOf b2 x = x) := by
    simp only [Finset.mem_filter, Finset.mem_range]
    exact ⟨hw, hwlead⟩
  have hlmem : l ∈ (Finset.range b2.length).filter (fun x => parentOf b2 x = x) := by
    simp only [Finset.mem_filter, Finset.mem_range]
    exact ⟨hl, hllead⟩
  set F2 := (Finset.range b2.length).filter (fun x => parentOf b2 x = x) with hF2
  have hwmem' : w ∈ F2.erase l := Finset.mem_erase.mpr ⟨hne, hwmem⟩
  have hsum1 : (getCell b2 l).size + (F2.erase l).sum (fun x => (getCell b2 x).size) =
      F2.sum (fun x => (getCell b2 x).size) :=
    Finset.add_sum_erase F2 (fun x => (getCell b2 x).size) hlmem
  have hsum2 : (getCell b2 w).size +
      ((F2.erase l).erase w).sum (fun x => (getCell b2 x).size) =
      (F2.erase l).sum (fun x => (getCell b2 x).size) :=
    Finset.add_sum_erase (F2.erase l) (fun x => (getCell b2 x).size) hwmem'
  have htotal := inv2.size_sum
  rw [← hF2] at htotal
  have hbound : (getCell b2 w).size + (getCell b2 l).size ≤ b2.length := by omega
  have hmod : ((getCell b2 w).size + (getCell b2 l).size) % 65536 =
      (getCell b2 w).size + (getCell b2 l).size :=
    Nat.mod_eq_of_lt (by have := inv2.len_le; omega)
  have hinv5 : BoardInv base_size b5 := {
    len_le := by rw [hlen]; exact inv2.len_le
    parent_lt := by
      intro x hx
      rw [hlen] at hx ⊢
      rw [hpar]
      by_cases hj : l = x
      · rw [if_pos hj]; exact hw
      · rw [if_neg hj]; exact inv2.parent_lt x hx
    empty_cell := by
      intro x hx hemp
      rw [hlen] at hx
      rw [hplay] at hemp
      have hxw : x ≠ w := by
        intro he; rw [he] at hemp; exact hpw hemp
      have hxl : x ≠ l := by
        intro he; rw [he] at hemp; rw [hpl] at hemp; exact hpw hemp
      obtain ⟨h1, h2, h3⟩ := inv2.empty_cell x hx hemp
      refine ⟨?_, ?_, ?_⟩
      · rw [hpar, if_neg (fun he => hxl he.symm)]; exact h1
      · rw [hsize, if_neg (fun he => hxw he.symm)]; exact h2
      · have he5 : (getCell b5 x).edge = (getCell b2 x).edge := by
          rw [hb5, edge_setEdge,
            if_neg (by rintro ⟨h4, -⟩; exact hxw h4.symm), hb4, edge_setSize, hb3,
            edge_setParent]
        rw [he5]
        exact h3
    chain_player := by
      intro x hx hocc
      rw [hlen] at hx
      rw [hplay] at hocc
      rw [hpar]
      by_cases hj : l = x
      · subst hj
        rw [if_pos rfl, hplay, hplay, hpl]
      · rw [if_neg hj, hplay, hplay]
        exact inv2.chain_player x hx hocc
    chain_term := by
      intro x hx
      rw [hlen] at hx
      obtain ⟨k, hk⟩ := inv2.chain_term x hx
      refine term_update b2 b5 l w ?_ ?_ ?_ k x hk
      · intro j hj
        rw [hpar, if_neg (fun he => hj he.symm)]
      · rw [hpar, if_pos rfl]
      · show parentOf b5 w = w
        rw [hpar, if_neg (fun he => hne he.symm)]
        exact hwlead
    size_sum := by
      rw [hlen]
      have hfilter : (Finset.range b2.length).filter (fun x => parentOf b5 x = x) =
          F2.erase l := by
        ext x
        simp only [Finset.mem_filter, Finset.mem_range, Finset.mem_erase, hF2]
        constructor
        · rintro ⟨hx, hx2⟩
          rw [hpar] at hx2
          by_cases hj : l = x
          · rw [if_pos hj] at hx2
            exact absurd (hx2.trans hj.symm) hne
          · rw [if_neg hj] at hx2
            exact ⟨fun he => hj he.symm, hx, hx2⟩
        · rintro ⟨hx1, hx2, hx3⟩
          refine ⟨hx2, ?_⟩
          rw [hpar, if_neg (fun he => hx1 he.symm)]
          exact hx3
      rw [hfilter]
      have hrw : (F2.erase l).sum (fun x => (getCell b5 x).size) =
          (getCell b5 w).size + ((F2.erase l).erase w).sum (fun x => (getCell b5 x).size) :=
        (Finset.add_sum_erase (F2.erase l) (fun x => (getCell b5 x).size) hwmem').symm
      rw [hrw]
      have hrest : ((F2.erase l).erase w).sum (fun x => (getCell b5 x).size) =
          ((F2.erase l).erase w).sum (fun x => (getCell b2 x).size) := by
        refine Finset.sum_congr rfl ?_
        intro x hx
        have hxw : x ≠ w := (Finset.mem_erase.mp hx).1
        rw [hsize, if_neg (fun he => hxw he.symm)]
      rw [hrest, hsize, if_pos rfl, hmod]
      omega }
  exact ⟨hinv5, hlen, hplay⟩

theorem joinGroups_inv (base_size : Nat) (b : List Cell) (inv : BoardInv base_size b)
    (ca cb : Nat) (hca : ca < b.length) (hcb : cb < b.length)
    (hocc : (getCell b ca).player ≠ .kPlayerNone)
    (hsame : (getCell b cb).player = (getCell b ca).player) :
    BoardInv base_size (joinGroups b ca cb).2 ∧
      (joinGroups b ca cb).2.length = b.length ∧
      (∀ j, (getCell (joinGroups b ca cb).2 j).player = (getCell b j).player) := by
  obtain ⟨inv1, spec1⟩ := findGroupLeader_inv base_size b inv ca hca
  obtain ⟨inv2, spec2⟩ :=
    findGroupLeader_inv base_size (findGroupLeader b ca).2 inv1 cb (by rw [spec1.len]; exact hcb)
  simp only [joinGroups]
  set fa := findGroupLeader b ca with hfa
  set fb := findGroupLeader fa.2 cb with hfb
  have hlen1 : fa.2.length = b.length := spec1.len
  have hlen2 : fb.2.length = b.length := by rw [spec2.len, hlen1]
  have hplay2 : ∀ j, (getCell fb.2 j).player = (getCell b j).player := fun j => by
    rw [spec2.player_eq, spec1.player_eq]
  have hla_lead : isLeader fb.2 fa.1 := by
    by_cases hh : fa.1 = cb
    · have hlead1 : isLeader fa.2 fa.1 := spec1.leader_new
      have he : fb.1 = fa.1 := by
        obtain ⟨m, hm⟩ := spec2.on_chain
        rw [hm, ← hh, iterP_leader_fix fa.2 m fa.1 hlead1]
      rw [← he]
      exact spec2.leader_new
    · show parentOf fb.2 fa.1 = fa.1
      rw [spec2.parent_other fa.1 hh]
      exact spec1.leader_new
  have hlb_lead : isLeader fb.2 fb.1 := spec2.leader_new
  have hla_lt : fa.1 < fb.2.length := by rw [hlen2]; exact spec1.lt
  have hlb_lt : fb.1 < fb.2.length := by rw [hlen2, ← hlen1]; exact spec2.lt
  have hpla : (getCell fb.2 fa.1).player = (getCell b ca).player := by
    rw [hplay2]
    obtain ⟨m, hm⟩ := spec1.on_chain
    rw [hm, player_iterP b inv.parent_lt inv.chain_player m ca hca hocc]
  have hplb : (getCell fb.2 fb.1).player = (getCell b ca).player := by
    rw [spec2.player_eq]
    obtain ⟨m, hm⟩ := spec2.on_chain
    have hcb1 : cb < fa.2.length := by rw [hlen1]; exact hcb
    have hocc1 : (getCell fa.2 cb).player ≠ .kPlayerNone := by
      rw [spec1.player_eq, hsame]; exact hocc
    rw [hm, player_iterP fa.2 inv1.parent_lt inv1.chain_player m cb hcb1 hocc1,
      spec1.player_eq, hsame]
  by_cases heq : fa.1 = fb.1
  · rw [if_pos heq]
    exact ⟨inv2, hlen2, hplay2⟩
  · rw [if_neg heq]
    by_cases hsw : (getCell fb.2 fa.1).size < (getCell fb.2 fb.1).size
    · simp only [if_pos hsw]
      obtain ⟨hI, hL, hP⟩ := merge_step_inv base_size fb.2 inv2 fb.1 fa.1
        hlb_lt hla_lt (fun he => heq he.symm) hlb_lead hla_lead
        (by rw [hplb]; exact hocc) (hpla.trans hplb.symm)
        _ _ _ rfl rfl rfl
      exact ⟨hI, by rw [hL, hlen2], fun j => by rw [hP j, hplay2 j]⟩
    · simp only [if_neg hsw]
      obtain ⟨hI, hL, hP⟩ := merge_step_inv base_size fb.2 inv2 fa.1 fb.1
        hla_lt hlb_lt heq hla_lead hlb_lead
        (by rw [hpla]; exact hocc) (hplb.trans hpla.symm)
        _ _ _ rfl rfl rfl
      exact ⟨hI, by rw [hL, hlen2], fun j => by rw [hP j, hplay2 j]⟩

/-! ### Length and structural lemmas for the engine -/

theorem getCell_out_of_range (b : List Cell) (n : Nat) (h : b.length ≤ n) :
    getCell b n = default := by
  unfold getCell
  rw [List.getD_eq_getElem?_getD, List.getElem?_eq_none h]
  rfl

theorem findGroupLeader_length (b : List Cell) (c : Nat) :
    (findGroupLeader b c).2.length = b.length := by
  simp only [findGroupLeader]
  split
  · rfl
  · exact length_setParent ..

theorem joinGroups_length (b : List Cell) (x y : Nat) :
    (joinGroups b x y).2.length = b.length := by
  simp only [joinGroups]
  split
  · rw [findGroupLeader_length, findGroupLeader_length]
  · show (setEdge _ _ _).length = b.length
    rw [length_setEdge, length_setSize, length_setParent,
      findGroupLeader_length, findGroupLeader_length]

theorem joinLoop_length (p : GeodesicYPlayer) (a : Nat) (nbrs : List Nat) :
    ∀ b : List Cell,
      (nbrs.foldl (fun bd nhbr =>
        if p = (getCell bd nhbr).player then (joinGroups bd a nhbr).2 else bd) b).length =
      b.length := by
  induction nbrs with
  | nil => intro b; rfl
  | cons n rest ih =>
      intro b
      rw [List.foldl_cons]
      by_cases h : p = (getCell b n).player
      · rw [if_pos h, ih, joinGroups_length]
      · rw [if_neg h]
        exact ih b

theorem doApplyAction_length (s : GState) (a : Nat) :
    (doApplyAction s a).board.length = s.board.length := by
  show (findGroupLeader _ a).2.length = _
  rw [findGroupLeader_length, joinLoop_length, length_setPlayer]

/-- The engine invariant at the state level. -/
structure SInv (base_size : Nat) (s : GState) : Prop where
  board_inv : BoardInv base_size s.board
  base_eq : s.base_size = base_size
  len_eq : s.board.length = boardSize base_size
  cur_ne : s.current_player ≠ .kPlayerNone

theorem mem_legalActions (s : GState) (a : Nat) (h : a ∈ legalActions s) :
    a < s.board.length ∧ (getCell s.board a).player = .kPlayerNone ∧
      s.outcome = .kPlayerNone := by
  unfold legalActions at h
  by_cases ht : isTerminal s = true
  · rw [if_pos ht] at h
    exact absurd h (List.not_mem_nil a)
  · rw [if_neg ht] at h
    simp only [List.mem_filter, List.mem_range, beq_iff_eq] at h
    refine ⟨h.1, h.2, ?_⟩
    cases hout : s.outcome with
    | kPlayerNone => rfl
    | kPlayer1 => simp [isTerminal, hout] at ht
    | kPlayer2 => simp [isTerminal, hout] at ht

theorem joinLoop_inv (base_size : Nat) (p : GeodesicYPlayer) (hp : p ≠ .kPlayerNone)
    (a : Nat) (nbrs : List Nat) :
    ∀ b : List Cell, BoardInv base_size b → a < b.length → (getCell b a).player = p →
      BoardInv base_size (nbrs.foldl (fun bd nhbr =>
          if p = (getCell bd nhbr).player then (joinGroups bd a nhbr).2 else bd) b) ∧
      (nbrs.foldl (fun bd nhbr =>
          if p = (getCell bd nhbr).player then (joinGroups bd a nhbr).2 else bd) b).length =
        b.length ∧
      (∀ j, (getCell (nbrs.foldl (fun bd nhbr =>
          if p = (getCell bd nhbr).player then (joinGroups bd a nhbr).2 else bd) b) j).player =
        (getCell b j).player) := by
  induction nbrs with
  | nil => exact fun b hb _ _ => ⟨hb, rfl, fun j => rfl⟩
  | cons n rest ih =>
      intro b hb ha hpa
      rw [List.foldl_cons]
      by_cases hcond : p = (getCell b n).player
      · rw [if_pos hcond]
        have hn : n < b.length := by
          by_contra hnn
          rw [getCell_out_of_range b n (Nat.le_of_not_lt hnn)] at hcond
          exact hp hcond
        obtain ⟨hI, hL, hP⟩ := joinGroups_inv base_size b hb a n ha hn
          (by rw [hpa]; exact hp) (by rw [hpa]; exact hcond.symm)
        obtain ⟨hI2, hL2, hP2⟩ := ih (joinGroups b a n).2 hI
          (by rw [hL]; exact ha) (by rw [hP, hpa])
        exact ⟨hI2, by rw [hL2, hL], fun j => by rw [hP2 j, hP j]⟩
      · rw [if_neg hcond]
        exact ih b hb ha hpa

theorem doApplyAction_inv (base_size : Nat) (s : GState) (hs : SInv base_size s)
    (a : Nat) (ha : a ∈ legalActions s) :
    SInv base_size (doApplyAction s a) := by
  obtain ⟨halt, hempty, -⟩ := mem_legalActions s a ha
  have hinv0 := setPlayer_inv base_size s.board hs.board_inv a halt hempty
    s.current_player hs.cur_ne
  have h0len : (setPlayer s.board a s.current_player).length = s.board.length :=
    length_setPlayer ..
  have h0a : (getCell (setPlayer s.board a s.current_player) a).player = s.current_player := by
    rw [player_setPlayer, if_pos ⟨rfl, halt⟩]
  obtain ⟨hinv1, hlen1, -⟩ := joinLoop_inv base_size s.current_player hs.cur_ne a
    (s.neighbors.getD a []) (setPlayer s.board a s.current_player) hinv0
    (by rw [h0len]; exact halt) h0a
  obtain ⟨hinv2, spec2⟩ := findGroupLeader_inv base_size _ hinv1 a
    (by rw [hlen1, h0len]; exact halt)
  exact {
    board_inv := hinv2
    base_eq := hs.base_eq
    len_eq := by
      show (findGroupLeader _ a).2.length = boardSize base_size
      rw [findGroupLeader_length, hlen1, h0len, hs.len_eq]
    cur_ne := by
      show (if s.current_player = .kPlayer1 then GeodesicYPlayer.kPlayer2
        else .kPlayer1) ≠ .kPlayerNone
      split_ifs <;> simp }

theorem applyAction_inv (base_size : Nat) (s : GState) (hs : SInv base_size s)
    (a : Nat) (ha : a ∈ legalActions s) :
    SInv base_size (applyAction s a) := by
  have h := doApplyAction_inv base_size s hs a ha
  exact {
    board_inv := h.board_inv
    base_eq := h.base_eq
    len_eq := h.len_eq
    cur_ne := h.cur_ne }

theorem length_initialBoard (base_size : Nat) :
    (initialBoard base_size).length = boardSize base_size := by
  unfold initialBoard
  rw [List.length_map, List.length_range]

theorem getCell_initialBoard (base_size : Nat) (i : Nat) (hi : i < boardSize base_size) :
    getCell (initialBoard base_size) i =
      ⟨.kPlayerNone, i, 1, getEdge i base_size⟩ := by
  unfold getCell initialBoard
  rw [List.getD_eq_getElem?_getD, List.getElem?_map, List.getElem?_range hi]
  rfl

theorem boardSize_le (base_size : Nat) : boardSize base_size ≤ 65535 := by
  unfold boardSize
  have := Nat.mod_lt (3 * base_size * (base_size - 1) / 2) (show 0 < 65536 by norm_num)
  omega

theorem initialBoard_inv (base_size : Nat) : BoardInv base_size (initialBoard base_size) := by
  have hlen := length_initialBoard base_size
  refine {
    len_le := by rw [hlen]; exact boardSize_le base_size
    parent_lt := ?_
    empty_cell := ?_
    chain_player := ?_
    chain_term := ?_
    size_sum := ?_ }
  · intro c hc
    rw [hlen] at hc
    unfold parentOf
    rw [getCell_initialBoard base_size c hc, hlen]
    exact hc
  · intro c hc _
    rw [hlen] at hc
    unfold parentOf
    rw [getCell_initialBoard base_size c hc]
    exact ⟨rfl, rfl, rfl⟩
  · intro c hc hocc
    rw [hlen] at hc
    rw [getCell_initialBoard base_size c hc] at hocc
    exact absurd rfl hocc
  · intro c hc
    rw [hlen] at hc
    refine ⟨0, ?_⟩
    show parentOf _ c = c
    unfold parentOf
    rw [getCell_initialBoard base_size c hc]
  · rw [hlen]
    have hfilter : (Finset.range (boardSize base_size)).filter
          (fun l => parentOf (initialBoard base_size) l = l) =
        Finset.range (boardSize base_size) := by
      apply Finset.filter_true_of_mem
      intro x hx
      rw [Finset.mem_range] at hx
      unfold parentOf
      rw [getCell_initialBoard base_size x hx]
    rw [hfilter]
    have hone : ∀ x ∈ Finset.range (boardSize base_size),
        (getCell (initialBoard base_size) x).size = 1 := by
      intro x hx
      rw [Finset.mem_range] at hx
      rw [getCell_initialBoard base_size x hx]
    rw [Finset.sum_congr rfl hone, Finset.sum_const, Finset.card_range, smul_eq_mul,
      Nat.mul_one]

theorem initial_SInv (base_size : Nat) : SInv base_size (initialState base_size) := {
  board_inv := initialBoard_inv base_size
  base_eq := rfl
  len_eq := length_initialBoard base_size
  cur_ne := by simp [initialState] }

theorem SInv_applyActionList (base_size : Nat) :
    ∀ (acts : List Nat) (s : GState), SInv base_size s → legalSeqB s acts = true →
      SInv base_size (applyActionList s acts) := by
  intro acts
  induction acts with
  | nil => exact fun s hs _ => hs
  | cons a rest ih =>
      intro s hs hl
      have hl' : (decide (a ∈ legalActions s) && legalSeqB (applyAction s a) rest) = true := hl
      rw [Bool.and_eq_true] at hl'
      obtain ⟨h1, h2⟩ := hl'
      have ha : a ∈ legalActions s := of_decide_eq_true h1
      exact ih (applyAction s a) (applyAction_inv base_size s hs a ha) h2

/-! ### Undo by reset-and-replay -/

theorem applyActionList_append (s : GState) (xs ys : List Nat) :
    applyActionList s (xs ++ ys) = applyActionList (applyActionList s xs) ys :=
  List.foldl_append ..

theorem legalSeqB_append (s : GState) (xs ys : List Nat) :
    legalSeqB s (xs ++ ys) = (legalSeqB s xs && legalSeqB (applyActionList s xs) ys) := by
  induction xs generalizing s with
  | nil => rfl
  | cons a rest ih =>
      show (decide (a ∈ legalActions s) && legalSeqB (applyAction s a) (rest ++ ys)) = _
      rw [ih (applyAction s a), ← Bool.and_assoc]
      rfl

theorem history_applyActionList (s : GState) (acts : List Nat) :
    (applyActionList s acts).history = s.history ++ acts := by
  induction acts generalizing s with
  | nil => simp [applyActionList]
  | cons a rest ih =>
      show (applyActionList (applyAction s a) rest).history = _
      rw [ih]
      show (s.history ++ [a]) ++ rest = s.history ++ (a :: rest)
      simp

theorem base_applyActionList (s : GState) (acts : List Nat) :
    (applyActionList s acts).base_size = s.base_size := by
  induction acts generalizing s with
  | nil => rfl
  | cons a rest ih => exact ih (applyAction s a)

theorem neighbors_applyActionList (s : GState) (acts : List Nat) :
    (applyActionList s acts).neighbors = s.neighbors := by
  induction acts generalizing s with
  | nil => rfl
  | cons a rest ih => exact ih (applyAction s a)

theorem length_board_applyActionList (s : GState) (acts : List Nat) :
    (applyActionList s acts).board.length = s.board.length := by
  induction acts generalizing s with
  | nil => rfl
  | cons a rest ih =>
      show (applyActionList (applyAction s a) rest).board.length = _
      rw [ih, show (applyAction s a).board = (doApplyAction s a).board from rfl,
        doApplyAction_length]

theorem doApplyAction_history_free (s : GState) (h : List Nat) (a : Nat) :
    doApplyAction { s with history := h } a = { doApplyAction s a with history := h } := by
  cases s
  rfl

theorem doApplyList_history_free (s : GState) (h : List Nat) (acts : List Nat) :
    doApplyList { s with history := h } acts = { doApplyList s acts with history := h } := by
  induction acts generalizing s with
  | nil => rfl
  | cons a rest ih =>
      show doApplyList (doApplyAction { s with history := h } a) rest = _
      rw [doApplyAction_history_free]
      exact ih (doApplyAction s a)

theorem applyActionList_eq_doApplyList (s : GState) (acts : List Nat) :
    applyActionList s acts = { doApplyList s acts with history := s.history ++ acts } := by
  induction acts generalizing s with
  | nil => cases s; simp [applyActionList, doApplyList]
  | cons a rest ih =>
      show applyActionList (applyAction s a) rest = _
      rw [ih, show applyAction s a = { doApplyAction s a with history := s.history ++ [a] }
        from rfl, doApplyList_history_free]
      show ({ doApplyList (doApplyAction s a) rest with history := (s.history ++ [a]) ++ rest })
        = { doApplyList (doApplyAction s a) rest with history := s.history ++ (a :: rest) }
      simp

theorem resetBoard_applyList (base_size : Nat) (acts : List Nat) (h : List Nat) :
    resetBoard { applyActionList (initialState base_size) acts with history := h } =
      { initialState base_size with history := h } := by
  have hbase : (applyActionList (initialState base_size) acts).base_size = base_size := by
    rw [base_applyActionList]; rfl
  have hlen : (applyActionList (initialState base_size) acts).board.length =
      boardSize base_size := by
    rw [length_board_applyActionList]
    exact length_initialBoard base_size
  have hnb : (applyActionList (initialState base_size) acts).neighbors =
      generateNeighbors base_size := by
    rw [neighbors_applyActionList]; rfl
  unfold resetBoard
  dsimp only
  rw [hbase, hlen, hnb]
  rfl

theorem undoAction_applyList (base_size : Nat) (pre : List Nat) (a : Nat) :
    undoAction (applyActionList (initialState base_size) (pre ++ [a])) =
      applyActionList (initialState base_size) pre := by
  have h1 : undoAction (applyActionList (initialState base_size) (pre ++ [a])) =
      doApplyList
        (resetBoard { applyActionList (initialState base_size) (pre ++ [a]) with
          history := (applyActionList (initialState base_size) (pre ++ [a])).history.dropLast })
        (applyActionList (initialState base_size) (pre ++ [a])).history.dropLast := rfl
  have hd : (applyActionList (initialState base_size) (pre ++ [a])).history.dropLast = pre := by
    rw [history_applyActionList]
    show (([] : List Nat) ++ (pre ++ [a])).dropLast = pre
    rw [List.nil_append, List.dropLast_concat]
  rw [h1, hd, resetBoard_applyList, doApplyList_history_free,
    applyActionList_eq_doApplyList]
  rfl

theorem undoIter_applyList (base_size : Nat) (acts : List Nat) :
    undoIter acts.length (applyActionList (initialState base_size) acts) =
      initialState base_size := by
  induction acts using List.reverseRecOn with
  | nil => rfl
  | append_singleton pre a ih =>
      rw [List.length_append]
      show undoIter (pre.length + 1) (applyActionList (initialState base_size) (pre ++ [a])) = _
      rw [show undoIter (pre.length + 1)
            (applyActionList (initialState base_size) (pre ++ [a])) =
          undoIter pre.length
            (undoAction (applyActionList (initialState base_size) (pre ++ [a]))) from rfl,
        undoAction_applyList]
      exact ih

/-- Every reachable state is the result of applying some legal action
sequence to the initial state. -/
theorem reachable_applyList (base_size : Nat) (s : GState) (h : Reachable base_size s) :
    ∃ acts, legalSeqB (initialState base_size) acts = true ∧
      s = applyActionList (initialState base_size) acts := by
  induction h with
  | init => exact ⟨[], rfl, rfl⟩
  | @step s' a hr hl ih =>
      obtain ⟨acts, hleg, hse⟩ := ih
      refine ⟨acts ++ [a], ?_, ?_⟩
      · rw [legalSeqB_append, hleg, Bool.true_and, ← hse]
        show (decide (a ∈ legalActions s') && legalSeqB (applyAction s' a) []) = true
        simp [hl, legalSeqB]
      · rw [applyActionList_append, ← hse]
        rfl
  | @undo s' hr hne ih =>
      obtain ⟨acts, hleg, hse⟩ := ih
      have hhist : s'.history = acts := by
        rw [hse, history_applyActionList]
        rfl
      have hacts : acts ≠ [] := by rw [← hhist]; exact hne
      obtain ⟨pre, last, rfl⟩ : ∃ pre last, acts = pre ++ [last] :=
        ⟨acts.dropLast, acts.getLast hacts, (List.dropLast_append_getLast hacts).symm⟩
      refine ⟨pre, ?_, ?_⟩
      · rw [legalSeqB_append, Bool.and_eq_true] at hleg
        exact hleg.1
      · rw [hse, undoAction_applyList]

theorem SInv_reachable (base_size : Nat) (s : GState) (h : Reachable base_size s) :
    SInv base_size s := by
  obtain ⟨acts, hleg, rfl⟩ := reachable_applyList base_size s h
  exact SInv_applyActionList base_size acts (initialState base_size)
    (initial_SInv base_size) hleg

/-! ### The adjacency generator -/

theorem length_pushAt (nb : List (List Nat)) (i : Nat) (vs : List Nat) :
    (pushAt nb i vs).length = nb.length :=
  List.length_set ..

theorem getD_pushAt (nb : List (List Nat)) (i : Nat) (vs : List Nat) (j : Nat) :
    (pushAt nb i vs).getD j [] =
      if i = j ∧ i < nb.length then nb.getD i [] ++ vs else nb.getD j [] := by
  unfold pushAt
  simp only [List.getD_eq_getElem?_getD, List.getElem?_set]
  by_cases h1 : i = j
  · subst h1
    by_cases h2 : i < nb.length
    · simp [h2]
    · simp [h2, List.getElem?_eq_none (Nat.le_of_not_lt h2)]
  · simp [h1]

theorem foldl_length_inv {α : Type} (f : List (List Nat) → α → List (List Nat))
    (hf : ∀ acc x, (f acc x).length = acc.length) (l : List α) :
    ∀ nb : List (List Nat), (l.foldl f nb).length = nb.length := by
  induction l with
  | nil => intro nb; rfl
  | cons a rest ih =>
      intro nb
      rw [List.foldl_cons, ih, hf]

theorem length_ringPass (nb : List (List Nat)) (ring : Nat) :
    (ringPass nb ring).length = nb.length := by
  simp only [ringPass]
  apply foldl_length_inv
  intro acc cell
  cases hcp : cellPushes (topNode ring) (rightNode ring) (leftNode ring)
    (topNode (ring - 1)) (rightNode (ring - 1)) (leftNode (ring - 1))
    (topNode ((ring + 1) % 65536) - 1) cell with
  | none => rfl
  | some vs => exact length_pushAt ..

theorem length_generateDirected (base_size : Nat) :
    (generateDirected base_size).length = boardSize base_size := by
  simp only [generateDirected]
  rw [foldl_length_inv ringPass (fun acc x => length_ringPass acc x) _ _,
    length_pushAt, length_pushAt, length_pushAt, List.length_replicate]

/-- A fold of single pushes described by an explicit list of
(target index, pushed value) pairs. -/
def foldPush (nb : List (List Nat)) (ps : List (Nat × Nat)) : List (List Nat) :=
  ps.foldl (fun acc p => pushAt acc p.1 [p.2]) nb

theorem length_foldPush (ps : List (Nat × Nat)) :
    ∀ nb : List (List Nat), (foldPush nb ps).length = nb.length := by
  intro nb
  exact foldl_length_inv _ (fun acc p => length_pushAt ..) ps nb

theorem getD_foldPush (ps : List (Nat × Nat)) :
    ∀ (nb : List (List Nat)) (x : Nat), x < nb.length →
      (foldPush nb ps).getD x [] =
        nb.getD x [] ++ (ps.filter (fun p => p.1 == x)).map Prod.snd := by
  induction ps with
  | nil => intro nb x _; simp [foldPush]
  | cons p rest ih =>
      intro nb x hx
      show (foldPush (pushAt nb p.1 [p.2]) rest).getD x [] = _
      rw [ih (pushAt nb p.1 [p.2]) x (by rw [length_pushAt]; exact hx), getD_pushAt]
      by_cases h1 : p.1 = x
      · rw [if_pos ⟨h1, h1 ▸ hx⟩, List.filter_cons_of_pos (by simp [h1]), List.map_cons,
          h1, List.append_assoc]
        rfl
      · rw [if_neg (by rintro ⟨hh, -⟩; exact h1 hh),
          List.filter_cons_of_neg (by simp [h1])]

theorem foldl_push_flatMap (g : Nat → List Nat) (l : List Nat) :
    ∀ acc : List (List Nat),
      l.foldl (fun acc2 i => (g i).foldl (fun acc3 j => pushAt acc3 j [i]) acc2) acc =
      foldPush acc (l.flatMap (fun i => (g i).map (fun j => (j, i)))) := by
  induction l with
  | nil => intro acc; rfl
  | cons i rest ih =>
      intro acc
      rw [List.foldl_cons, List.flatMap_cons, ih]
      unfold foldPush
      rw [List.foldl_append]
      congr 1
      rw [List.foldl_map]

theorem symmetrize_eq_foldPush (nb : List (List Nat)) :
    symmetrize nb = foldPush nb ((List.range nb.length).flatMap
      (fun i => (nb.getD i []).map (fun j => (j, i)))) := by
  unfold symmetrize
  exact foldl_push_flatMap (fun i => nb.getD i []) (List.range nb.length) nb

theorem length_symmetrize (nb : List (List Nat)) :
    (symmetrize nb).length = nb.length := by
  rw [symmetrize_eq_foldPush]
  exact length_foldPush _ nb

theorem mem_symmetrize (nb : List (List Nat)) (x y : Nat) (hx : x < nb.length) :
    y ∈ (symmetrize nb).getD x [] ↔
      y ∈ nb.getD x [] ∨ (y < nb.length ∧ x ∈ nb.getD y []) := by
  rw [symmetrize_eq_foldPush, getD_foldPush _ nb x hx]
  simp only [List.mem_append, List.mem_map, List.mem_filter, List.mem_flatMap,
    List.mem_range, beq_iff_eq]
  constructor
  · rintro (h | ⟨p, ⟨⟨i, hi, j, hj, rfl⟩, hp1⟩, hp2⟩)
    · exact Or.inl h
    · right
      simp only at hp1 hp2
      subst hp1
      subst hp2
      exact ⟨hi, hj⟩
  · rintro (h | ⟨hy, h⟩)
    · exact Or.inl h
    · exact Or.inr ⟨(x, y), ⟨⟨y, hy, x, h, rfl⟩, rfl⟩, rfl⟩

theorem length_sortEach (nb : List (List Nat)) : (sortEach nb).length = nb.length :=
  List.length_map ..

theorem mem_insertSorted (x : Nat) (l : List Nat) (a : Nat) :
    a ∈ insertSorted x l ↔ a = x ∨ a ∈ l := by
  induction l with
  | nil => simp [insertSorted]
  | cons y ys ih =>
      unfold insertSorted
      by_cases h : x ≤ y
      · rw [if_pos h]
        simp
      · rw [if_neg h]
        simp only [List.mem_cons, ih]
        tauto

theorem mem_sortNat (l : List Nat) (a : Nat) : a ∈ sortNat l ↔ a ∈ l := by
  induction l with
  | nil => simp [sortNat]
  | cons y ys ih =>
      show a ∈ insertSorted y (sortNat ys) ↔ _
      rw [mem_insertSorted]
      simp only [List.mem_cons, ih]

theorem getD_sortEach (nb : List (List Nat)) (x : Nat) :
    (sortEach nb).getD x [] = sortNat (nb.getD x []) := by
  unfold sortEach
  rw [List.getD_eq_getElem?_getD, List.getElem?_map, List.getD_eq_getElem?_getD]
  cases h : nb[x]? with
  | none => rfl
  | some l => rfl

theorem length_generateNeighbors (base_size : Nat) :
    (generateNeighbors base_size).length = boardSize base_size := by
  unfold generateNeighbors
  rw [length_sortEach, length_symmetrize, length_generateDirected]

/-! ### Corner arithmetic -/

theorem boardSize_lt (b : Nat) (hb : b ≤ 209) : 3 * b * (b - 1) / 2 < 65536 := by
  have h1 : 3 * b * (b - 1) ≤ 3 * 209 * 208 :=
    Nat.mul_le_mul (Nat.mul_le_mul (Nat.le_refl 3) hb) (by omega)
  have h2 : 3 * b * (b - 1) / 2 ≤ 3 * 209 * 208 / 2 := Nat.div_le_div_right h1
  omega

theorem boardSize_exact (b : Nat) (hb : b ≤ 209) :
    boardSize b = 3 * b * (b - 1) / 2 :=
  Nat.mod_eq_of_lt (boardSize_lt b hb)

theorem tri_succ (m : Nat) : 3 * (m + 1) * m / 2 = 3 * m * (m - 1) / 2 + 3 * m := by
  cases m with
  | zero => rfl
  | succ k =>
      show 3 * (k + 2) * (k + 1) / 2 = 3 * (k + 1) * ((k + 1) - 1) / 2 + 3 * (k + 1)
      have h2 : (k + 1) - 1 = k := rfl
      have h1 : 3 * (k + 2) * (k + 1) = 3 * (k + 1) * k + (3 * (k + 1)) * 2 := by ring
      rw [h2, h1, Nat.add_mul_div_right _ _ (by norm_num : 0 < 2)]

/-- For `2 ≤ base_size ≤ 209`, no 16-bit truncation occurs and the three
corner indices of the outer ring sit at `topNode`, `topNode + (b-1)`,
`topNode + 2(b-1)`, with the board ending at `topNode + 3(b-1)`. -/
theorem corner_arith (b : Nat) (hb2 : 2 ≤ b) (hb : b ≤ 209) :
    rightNode b = topNode b + (b - 1) ∧
    leftNode b = topNode b + 2 * (b - 1) ∧
    boardSize b = topNode b + 3 * (b - 1) := by
  have hTb : boardSize b = 3 * b * (b - 1) / 2 := boardSize_exact b hb
  have hTb1 : boardSize (b - 1) = 3 * (b - 1) * (b - 1 - 1) / 2 :=
    boardSize_exact (b - 1) (by omega)
  have hstep : 3 * b * (b - 1) / 2 = 3 * (b - 1) * (b - 1 - 1) / 2 + 3 * (b - 1) := by
    have h := tri_succ (b - 1)
    rw [show (b - 1) + 1 = b by omega] at h
    exact h
  have htop : topNode b = boardSize (b - 1) := rfl
  have hN : boardSize b = topNode b + 3 * (b - 1) := by
    rw [hTb, hstep, htop, hTb1]
  have hNlt : boardSize b < 65536 := by rw [hTb]; exact boardSize_lt b hb
  have hright : rightNode b = topNode b + (b - 1) := by
    unfold rightNode
    rw [Nat.add_sub_assoc (by omega : 1 ≤ b)]
    exact Nat.mod_eq_of_lt (by omega)
  have hleft : leftNode b = topNode b + 2 * (b - 1) := by
    unfold leftNode
    rw [hright, Nat.add_sub_assoc (by omega : 1 ≤ b),
      show topNode b + (b - 1) + (b - 1) = topNode b + 2 * (b - 1) by omega]
    exact Nat.mod_eq_of_lt (by omega)
  exact ⟨hright, hleft, hN⟩

/-- The classifier `getEdge` is the sum of the three disjoint indicator bits, exactly as
the three `if` statements of the source write them. -/
theorem getEdge_decomp (node base_size : Nat) :
    getEdge node base_size =
      (if topNode base_size ≤ node ∧ node ≤ rightNode base_size then kRight else 0) +
      (if rightNode base_size ≤ node ∧ node ≤ leftNode base_size then kBottom else 0) +
      (if leftNode base_size ≤ node ∨ node = topNode base_size then kLeft else 0) := by
  simp only [getEdge]
  split_ifs <;> rfl

/-! ### Unconditional field-preservation lemmas for C3 -/

theorem findGroupLeader_fields (b : List Cell) (c : Nat) (j : Nat) :
    (getCell (findGroupLeader b c).2 j).player = (getCell b j).player ∧
    (getCell (findGroupLeader b c).2 j).size = (getCell b j).size ∧
    (getCell (findGroupLeader b c).2 j).edge = (getCell b j).edge := by
  simp only [findGroupLeader]
  split
  · exact ⟨rfl, rfl, rfl⟩
  · exact ⟨player_setParent .., size_setParent .., edge_setParent ..⟩

theorem merge_step_fields (b2 : List Cell) (w l : Nat) (hwlt : w < b2.length)
    (hllt : l < b2.length) (hne : w ≠ l)
    (b3 b4 b5 : List Cell)
    (hb3 : b3 = setParent b2 l w)
    (hb4 : b4 = setSize b3 w (((getCell b3 w).size + (getCell b3 l).size) % 65536))
    (hb5 : b5 = setEdge b4 w ((getCell b4 w).edge ||| (getCell b4 l).edge)) :
    parentOf b5 l = w ∧
    (getCell b5 w).size = ((getCell b2 w).size + (getCell b2 l).size) % 65536 ∧
    (getCell b5 w).edge = (getCell b2 w).edge ||| (getCell b2 l).edge ∧
    (∀ j, j ≠ w → j ≠ l → getCell b5 j = getCell b2 j) := by
  refine ⟨?_, ?_, ?_, ?_⟩
  · rw [hb5, parentOf_setEdge, hb4, parentOf_setSize, hb3, parentOf_setParent,
      if_pos ⟨rfl, hllt⟩]
  · rw [hb5, size_setEdge, hb4, size_setSize,
      if_pos ⟨rfl, by rw [hb3, length_setParent]; exact hwlt⟩, hb3,
      size_setParent, size_setParent]
  · rw [hb5, edge_setEdge,
      if_pos ⟨rfl, by rw [hb4, hb3, length_setSize, length_setParent]; exact hwlt⟩,
      hb4, edge_setSize, edge_setSize, hb3, edge_setParent, edge_setParent]
  · intro j hjw hjl
    rw [hb5, getCell_setEdge, if_neg (by rintro ⟨h1, -⟩; exact hjw h1.symm),
      hb4, getCell_setSize, if_neg (by rintro ⟨h1, -⟩; exact hjw h1.symm),
      hb3, getCell_setParent, if_neg (by rintro ⟨h1, -⟩; exact hjl h1.symm)]

/-! ### The claims -/

/-- C1 (counterexample): on a board with `base_size = 2` the legal first
moves are exactly 0, 1 and 2, and none of them makes the state terminal:
after any single first move by Player1 the state is still in progress and
`Returns()` is `(0, 0)`, not `(1, -1)`. -/
theorem c1_counterexample :
    legalActions (initialState 2) = [0, 1, 2] ∧
    (isTerminal (applyAction (initialState 2) 0) = false ∧
      returnsOf (applyAction (initialState 2) 0) = (0, 0)) ∧
    (isTerminal (applyAction (initialState 2) 1) = false ∧
      returnsOf (applyAction (initialState 2) 1) = (0, 0)) ∧
    (isTerminal (applyAction (initialState 2) 2) = false ∧
      returnsOf (applyAction (initialState 2) 2) = (0, 0)) := by
  decide

/-- C1 (amended): on `base_size = 2` every node lies on exactly two of the
three edges (masks 5, 3, 6), so the very first move never produces a
terminal state; the game is first won when one player's second stone joins
their first: after the actions `[0, 1, 2]` the state is terminal with
winner Player1 and `Returns() = (1, -1)`. -/
theorem c1_amended :
    (∀ a ∈ legalActions (initialState 2),
      isTerminal (applyAction (initialState 2) a) = false) ∧
    getEdge 0 2 = kRight + kLeft ∧
    getEdge 1 2 = kRight + kBottom ∧
    getEdge 2 2 = kBottom + kLeft ∧
    isTerminal (applyActionList (initialState 2) [0, 1, 2]) = true ∧
    (applyActionList (initialState 2) [0, 1, 2]).outcome = .kPlayer1 ∧
    returnsOf (applyActionList (initialState 2) [0, 1, 2]) = (1, -1) := by
  decide

/-- C2: for every `base_size ≥ 2` and all nodes `a`, `b` of the adjacency
list produced by the topology generator, `b ∈ neighbors(a)` iff
`a ∈ neighbors(b)`. -/
theorem c2_adjacency_symmetric (base_size : Nat) (hbase : 2 ≤ base_size) (a b : Nat)
    (ha : a < (generateNeighbors base_size).length)
    (hb : b < (generateNeighbors base_size).length) :
    b ∈ (generateNeighbors base_size).getD a [] ↔
      a ∈ (generateNeighbors base_size).getD b [] := by
  have hlen : (generateNeighbors base_size).length =
      (generateDirected base_size).length := by
    unfold generateNeighbors
    rw [length_sortEach, length_symmetrize]
  rw [hlen] at ha hb
  unfold generateNeighbors
  rw [getD_sortEach, getD_sortEach, mem_sortNat, mem_sortNat,
    mem_symmetrize (generateDirected base_size) a b ha,
    mem_symmetrize (generateDirected base_size) b a hb]
  constructor
  · rintro (h | ⟨-, h⟩)
    · exact Or.inr ⟨ha, h⟩
    · exact Or.inl h
  · rintro (h | ⟨-, h⟩)
    · exact Or.inr ⟨hb, h⟩
    · exact Or.inl h

/-- C2 witness at `base_size = 3`, nodes 0 and 1. -/
theorem c2_witness :
    1 ∈ (generateNeighbors 3).getD 0 [] ↔ 0 ∈ (generateNeighbors 3).getD 1 [] :=
  c2_adjacency_symmetric 3 (by decide) 0 1 (by decide) (by decide)

/-- C9: in the ring loop of `generateNeighbors`, every cell with
`cell < ring_size` (the loop guard), with `last = ring_size - 1`, matches
one of the positional cases of `cellPushes`, so the fatal `unknown cell`
branch (the `none` result) is unreachable for any corner values. -/
theorem c9_no_unknown_cell (top right left top_below right_below left_below
    ring_size cell : Nat) (h : cell < ring_size) :
    (cellPushes top right left top_below right_below left_below
      (ring_size - 1) cell).isSome = true := by
  simp only [cellPushes]
  split_ifs <;> first | rfl | omega

/-- C9 witness: the values of ring 3 on the `base_size = 3` board. -/
theorem c9_witness :
    (cellPushes 3 5 7 0 1 2 (9 - 1) 4).isSome = true :=
  c9_no_unknown_cell 3 5 7 0 1 2 9 4 (by decide)

/-- C7 (counterexample): at `base_size = 210` the 16-bit `boardSize`
truncates: it returns `299`, not `3·210·209/2 = 65835`, so the claimed node
count formula is not exact for every `base_size ≥ 2`. -/
theorem c7_counterexample :
    boardSize 210 = 299 ∧ 3 * 210 * 209 / 2 = 65835 ∧
      boardSize 210 ≠ 3 * 210 * 209 / 2 := by
  decide

/-- C7 (amended): for `2 ≤ base_size ≤ 209` (exactly the sizes at which
`3·base_size·(base_size−1)/2` fits in 16 bits) the board has exactly
`3·base_size·(base_size−1)/2` nodes, both as `boardSize` and as the length
of the generated adjacency list; in particular N = 3, 9, 108 for sizes
2, 3, 9. -/
theorem c7_node_count (base_size : Nat) (hb2 : 2 ≤ base_size) (hb : base_size ≤ 209) :
    boardSize base_size = 3 * base_size * (base_size - 1) / 2 ∧
    (generateNeighbors base_size).length = 3 * base_size * (base_size - 1) / 2 ∧
    boardSize 2 = 3 ∧ boardSize 3 = 9 ∧ boardSize 9 = 108 := by
  have h := boardSize_exact base_size hb
  exact ⟨h, by rw [length_generateNeighbors, h], by decide, by decide, by decide⟩

/-- C7 witness at `base_size = 9`. -/
theorem c7_witness :
    boardSize 9 = 3 * 9 * (9 - 1) / 2 ∧
    (generateNeighbors 9).length = 3 * 9 * (9 - 1) / 2 :=
  ⟨(c7_node_count 9 (by decide) (by decide)).1,
   (c7_node_count 9 (by decide) (by decide)).2.1⟩

/-- C6 (counterexample): at `base_size = 210` the truncated corner indices
break the claim: the left corner (node 90, a real node of the 299-node
board) carries the single bit `kLeft` instead of exactly two bits, and it
even lies below `topNode`, refuting mask-0 for nodes below the outer
ring's start index. -/
theorem c6_counterexample :
    leftNode 210 = 90 ∧ boardSize 210 = 299 ∧ leftNode 210 < boardSize 210 ∧
    getEdge (leftNode 210) 210 = kLeft ∧
    getEdge (leftNode 210) 210 ≠ kRight + kBottom ∧
    getEdge (leftNode 210) 210 ≠ kRight + kLeft ∧
    getEdge (leftNode 210) 210 ≠ kBottom + kLeft ∧
    leftNode 210 < topNode 210 := by
  decide

/-- C6 (amended): for `2 ≤ base_size ≤ 209` the classifier sets `RIGHT` iff
the node lies in `[top, right]`, `BOTTOM` iff in `[right, left]`, `LEFT`
iff at or beyond `left` or equal to `top`; each corner node carries exactly
two bits, and every node below the outer ring has mask 0.  (Beyond 209 the
16-bit corner arithmetic truncates, see the counterexample.) -/
theorem c6_edge_classifier (base_size : Nat) (hb2 : 2 ≤ base_size)
    (hb : base_size ≤ 209) (node : Nat) :
    (getEdge node base_size =
      (if topNode base_size ≤ node ∧ node ≤ rightNode base_size then kRight else 0) +
      (if rightNode base_size ≤ node ∧ node ≤ leftNode base_size then kBottom else 0) +
      (if leftNode base_size ≤ node ∨ node = topNode base_size then kLeft else 0)) ∧
    getEdge (topNode base_size) base_size = kRight + kLeft ∧
    getEdge (rightNode base_size) base_size = kRight + kBottom ∧
    getEdge (leftNode base_size) base_size = kBottom + kLeft ∧
    (node < topNode base_size → getEdge node base_size = 0) := by
  obtain ⟨hr, hl, hN⟩ := corner_arith base_size hb2 hb
  refine ⟨getEdge_decomp node base_size, ?_, ?_, ?_, ?_⟩
  · rw [getEdge_decomp, if_pos ⟨Nat.le_refl _, by omega⟩, if_neg (by omega),
      if_pos (Or.inr rfl)]
    decide
  · rw [getEdge_decomp, if_pos ⟨by omega, Nat.le_refl _⟩,
      if_pos ⟨Nat.le_refl _, by omega⟩, if_neg (by omega)]
    decide
  · rw [getEdge_decomp, if_neg (by omega), if_pos ⟨by omega, Nat.le_refl _⟩,
      if_pos (Or.inl (Nat.le_refl _))]
    decide
  · intro hn
    rw [getEdge_decomp, if_neg (by omega), if_neg (by omega), if_neg (by omega)]

/-- C6 witness at `base_size = 3`, node 1. -/
theorem c6_witness :
    getEdge (topNode 3) 3 = kRight + kLeft ∧ getEdge 1 3 = 0 :=
  ⟨(c6_edge_classifier 3 (by decide) (by decide) 1).2.1,
   (c6_edge_classifier 3 (by decide) (by decide) 1).2.2.2.2 (by decide)⟩

/-- C4: in every state reachable by legal `ApplyAction` and `UndoAction`
calls, following parent pointers from any cell reaches a self-parented
leader within `board.length` steps (so the parent relation has no cycle
beyond leader self-loops), and `FindGroupLeader` returns a node that is a
true leader of the board it produces. -/
theorem c4_findGroupLeader_total (base_size : Nat) (s : GState)
    (h : Reachable base_size s) (c : Nat) (hc : c < s.board.length) :
    (∃ k, k ≤ s.board.length ∧ isLeader s.board (iterP s.board k c)) ∧
    isLeader (findGroupLeader s.board c).2 (findGroupLeader s.board c).1 := by
  have hinv := (SInv_reachable base_size s h).board_inv
  refine ⟨term_bound s.board hinv.parent_lt c hc (hinv.chain_term c hc), ?_⟩
  exact (findGroupLeader_inv base_size s.board hinv c hc).2.leader_new

/-- C4 witness: the initial `base_size = 2` state, cell 0. -/
theorem c4_witness :
    (∃ k, k ≤ (initialState 2).board.length ∧
      isLeader (initialState 2).board (iterP (initialState 2).board k 0)) ∧
    isLeader (findGroupLeader (initialState 2).board 0).2
      (findGroupLeader (initialState 2).board 0).1 :=
  c4_findGroupLeader_total 2 (initialState 2) Reachable.init 0 (by decide)

/-- C10: in every reachable state, every unoccupied cell is its own
union-find leader with parent equal to its own index, size 1 and edge equal
to its intrinsic mask `getEdge`; merges only ever happen between two cells
of the moving player, so placing a stone never alters an empty cell's
union-find record. -/
theorem c10_empty_cells (base_size : Nat) (s : GState) (h : Reachable base_size s)
    (c : Nat) (hc : c < s.board.length)
    (hemp : (getCell s.board c).player = .kPlayerNone) :
    parentOf s.board c = c ∧ (getCell s.board c).size = 1 ∧
      (getCell s.board c).edge = getEdge c base_size :=
  (SInv_reachable base_size s h).board_inv.empty_cell c hc hemp

/-- C10 witness: the initial `base_size = 2` state, cell 0. -/
theorem c10_witness :
    parentOf (initialState 2).board 0 = 0 ∧
    (getCell (initialState 2).board 0).size = 1 ∧
    (getCell (initialState 2).board 0).edge = getEdge 0 2 :=
  c10_empty_cells 2 (initialState 2) Reachable.init 0 (by decide) (by decide)

/-- C8 (counterexample): in the initial `base_size = 2` state (reachable by
the empty action sequence) every one of the three empty cells is its own
leader with size 1, so the sum of `size` over all leaders is 3, while the
number of occupied cells is 0. -/
theorem c8_counterexample :
    Reachable 2 (initialState 2) ∧
    ((Finset.range (initialState 2).board.length).filter
        (fun l => parentOf (initialState 2).board l = l)).sum
      (fun l => (getCell (initialState 2).board l).size) = 3 ∧
    ((Finset.range (initialState 2).board.length).filter
        (fun c => (getCell (initialState 2).board c).player ≠ .kPlayerNone)).card = 0 :=
  ⟨Reachable.init, by decide, by decide⟩

/-- C8 (amended): in every reachable state, the sum of the `size` field
over the *occupied* group leaders equals the number of occupied cells (each
empty cell is additionally its own singleton leader of size 1, so the sum
over all leaders is occupied + empty, the board size). -/
theorem c8_occupied_leader_sizes (base_size : Nat) (s : GState)
    (h : Reachable base_size s) :
    ((Finset.range s.board.length).filter
        (fun l => parentOf s.board l = l ∧
          (getCell s.board l).player ≠ .kPlayerNone)).sum
      (fun l => (getCell s.board l).size) =
    ((Finset.range s.board.length).filter
        (fun c => (getCell s.board c).player ≠ .kPlayerNone)).card := by
  have hinv := (SInv_reachable base_size s h).board_inv
  have htot := hinv.size_sum
  have hsplit := Finset.sum_filter_add_sum_filter_not
    ((Finset.range s.board.length).filter (fun l => parentOf s.board l = l))
    (fun l => (getCell s.board l).player ≠ .kPlayerNone)
    (fun l => (getCell s.board l).size)
  rw [Finset.filter_filter, Finset.filter_filter] at hsplit
  have hempty_eq : (Finset.range s.board.length).filter
        (fun l => parentOf s.board l = l ∧
          ¬ (getCell s.board l).player ≠ .kPlayerNone) =
      (Finset.range s.board.length).filter
        (fun c => ¬ (getCell s.board c).player ≠ .kPlayerNone) := by
    ext x
    simp only [Finset.mem_filter, Finset.mem_range, not_not]
    constructor
    · rintro ⟨hx, -, hx2⟩
      exact ⟨hx, hx2⟩
    · rintro ⟨hx, hx2⟩
      exact ⟨hx, (hinv.empty_cell x hx hx2).1, hx2⟩
  have hempty_sum : ((Finset.range s.board.length).filter
        (fun c => ¬ (getCell s.board c).player ≠ .kPlayerNone)).sum
      (fun l => (getCell s.board l).size) =
      ((Finset.range s.board.length).filter
        (fun c => ¬ (getCell s.board c).player ≠ .kPlayerNone)).card := by
    rw [Finset.card_eq_sum_ones]
    refine Finset.sum_congr rfl ?_
    intro x hx
    simp only [Finset.mem_filter, Finset.mem_range, not_not] at hx
    exact (hinv.empty_cell x hx.1 hx.2).2.1
  have hcard := @Finset.filter_card_add_filter_neg_card_eq_card Nat
    (Finset.range s.board.length)
    (fun c => (getCell s.board c).player ≠ .kPlayerNone) _ _
  rw [Finset.card_range] at hcard
  rw [hempty_eq, hempty_sum, htot] at hsplit
  omega

/-- C8 witness: the initial `base_size = 2` state. -/
theorem c8_witness :
    ((Finset.range (initialState 2).board.length).filter
        (fun l => parentOf (initialState 2).board l = l ∧
          (getCell (initialState 2).board l).player ≠ .kPlayerNone)).sum
      (fun l => (getCell (initialState 2).board l).size) =
    ((Finset.range (initialState 2).board.length).filter
        (fun c => (getCell (initialState 2).board c).player ≠ .kPlayerNone)).card :=
  c8_occupied_leader_sizes 2 (initialState 2) Reachable.init

/-- C5: for every board size and legal action sequence of length `k`,
undoing all `k` moves restores exactly the initial state, replaying the
same `k` actions then reproduces exactly the state of applying them once,
and each single undo pops the last recorded move and equals a reset plus
replay of the remaining history through `DoApplyAction`. -/
theorem c5_undo_replay (base_size : Nat) (acts : List Nat)
    (hleg : legalSeqB (initialState base_size) acts = true) :
    undoIter acts.length (applyActionList (initialState base_size) acts) =
      initialState base_size ∧
    applyActionList
        (undoIter acts.length (applyActionList (initialState base_size) acts)) acts =
      applyActionList (initialState base_size) acts ∧
    (∀ pre a, acts = pre ++ [a] →
      undoAction (applyActionList (initialState base_size) acts) =
        applyActionList (initialState base_size) pre) := by
  have h1 := undoIter_applyList base_size acts
  refine ⟨h1, by rw [h1], ?_⟩
  intro pre a he
  rw [he, undoAction_applyList]

/-- C5 witness: `base_size = 2`, one move. -/
theorem c5_witness :
    undoIter 1 (applyActionList (initialState 2) [0]) = initialState 2 ∧
    applyActionList (undoIter 1 (applyActionList (initialState 2) [0])) [0] =
      applyActionList (initialState 2) [0] :=
  ⟨(c5_undo_replay 2 [0] (by decide)).1, (c5_undo_replay 2 [0] (by decide)).2.1⟩

/-- A board reachable on `base_size = 3`: play `[5, 2, 1, 4, 8, 6, 3, 7]`,
then within `DoApplyAction(0)` perform the joins with neighbours 1 and 3.
At that point cell 8's parent chain is `8 → 3 → 1`, and the pending
`JoinGroups(0, 8)` call finds equal leaders yet compresses cell 8's
parent. -/
def joinDemoBoard : List Cell :=
  [⟨.kPlayer1, 1, 1, 0⟩, ⟨.kPlayer1, 1, 5, 7⟩, ⟨.kPlayer2, 6, 1, 0⟩,
   ⟨.kPlayer1, 1, 2, 5⟩, ⟨.kPlayer2, 4, 1, 1⟩, ⟨.kPlayer1, 1, 1, 3⟩,
   ⟨.kPlayer2, 6, 3, 6⟩, ⟨.kPlayer2, 6, 1, 6⟩, ⟨.kPlayer1, 3, 1, 4⟩]

/-- C3 (counterexample): `JoinGroups(0, 8)` on `joinDemoBoard` is called
with the two cells already in the same group (leader 1); it returns `true`
but does *not* leave the board unchanged: path compression rewrites cell
8's parent from 3 to 1. -/
theorem c3_counterexample :
    (findGroupLeader joinDemoBoard 0).1 = (findGroupLeader joinDemoBoard 8).1 ∧
    (joinGroups joinDemoBoard 0 8).1 = true ∧
    (joinGroups joinDemoBoard 0 8).2 ≠ joinDemoBoard ∧
    parentOf joinDemoBoard 8 = 3 ∧
    parentOf (joinGroups joinDemoBoard 0 8).2 8 = 1 := by
  decide

/-- C3 (amended): `JoinGroups` returns `true` exactly when the two cells
already share a leader, but the board may still change by path compression
inside the two `FindGroupLeader` calls — owners, sizes and edge masks are
unchanged, only parent pointers move.  When the leaders differ it returns
`false` and performs union-by-size on the compressed board `b2`: with `w`
the surviving leader (the first cell's leader unless its group is strictly
smaller) and `l` the other, `l`'s group size is at most `w`'s, `l` is
re-parented under `w`, `w`'s size becomes the 16-bit sum of both sizes and
its edge mask the bitwise OR, and every other cell of `b2` is untouched. -/
theorem c3_joinGroups_contract (b b2 : List Cell) (ca cb la lb w l : Nat)
    (hla : la = (findGroupLeader b ca).1)
    (hb2 : b2 = (findGroupLeader (findGroupLeader b ca).2 cb).2)
    (hlb : lb = (findGroupLeader (findGroupLeader b ca).2 cb).1)
    (hw : w = if (getCell b2 la).size < (getCell b2 lb).size then lb else la)
    (hl : l = if (getCell b2 la).size < (getCell b2 lb).size then la else lb)
    (hlalt : la < b2.length) (hlblt : lb < b2.length) :
    ((joinGroups b ca cb).1 = true ↔ la = lb) ∧
    (la = lb → (joinGroups b ca cb).2 = b2 ∧
      (∀ j, (getCell b2 j).player = (getCell b j).player ∧
        (getCell b2 j).size = (getCell b j).size ∧
        (getCell b2 j).edge = (getCell b j).edge)) ∧
    (la ≠ lb →
      (getCell b2 l).size ≤ (getCell b2 w).size ∧
      parentOf (joinGroups b ca cb).2 l = w ∧
      (getCell (joinGroups b ca cb).2 w).size =
        ((getCell b2 w).size + (getCell b2 l).size) % 65536 ∧
      (getCell (joinGroups b ca cb).2 w).edge =
        (getCell b2 w).edge ||| (getCell b2 l).edge ∧
      (∀ j, j ≠ w → j ≠ l → getCell (joinGroups b ca cb).2 j = getCell b2 j)) := by
  subst hla hlb hb2 hw hl
  simp only [joinGroups]
  by_cases heq : (findGroupLeader b ca).1 =
      (findGroupLeader (findGroupLeader b ca).2 cb).1
  · rw [if_pos heq]
    refine ⟨by simp [heq], fun _ => ⟨rfl, fun j => ?_⟩, fun hne => absurd heq hne⟩
    obtain ⟨h1, h2, h3⟩ := findGroupLeader_fields (findGroupLeader b ca).2 cb j
    obtain ⟨h4, h5, h6⟩ := findGroupLeader_fields b ca j
    exact ⟨h1.trans h4, h2.trans h5, h3.trans h6⟩
  · rw [if_neg heq]
    refine ⟨by simp [heq], fun he => absurd he heq, fun hne => ?_⟩
    by_cases hsw : (getCell (findGroupLeader (findGroupLeader b ca).2 cb).2
        (findGroupLeader b ca).1).size <
        (getCell (findGroupLeader (findGroupLeader b ca).2 cb).2
          (findGroupLeader (findGroupLeader b ca).2 cb).1).size
    · simp only [if_pos hsw]
      obtain ⟨h1, h2, h3, h4⟩ := merge_step_fields
        (findGroupLeader (findGroupLeader b ca).2 cb).2
        (findGroupLeader (findGroupLeader b ca).2 cb).1 (findGroupLeader b ca).1
        hlblt hlalt (fun he => heq he.symm) _ _ _ rfl rfl rfl
      exact ⟨Nat.le_of_lt hsw, h1, h2, h3, h4⟩
    · simp only [if_neg hsw]
      obtain ⟨h1, h2, h3, h4⟩ := merge_step_fields
        (findGroupLeader (findGroupLeader b ca).2 cb).2
        (findGroupLeader b ca).1 (findGroupLeader (findGroupLeader b ca).2 cb).1
        hlalt hlblt heq _ _ _ rfl rfl rfl
      exact ⟨Nat.le_of_not_lt hsw, h1, h2, h3, h4⟩

/-- C3 witness: the contract applied to `joinDemoBoard` at cells 0 and 8,
whose leaders coincide, so the call returns `true`. -/
theorem c3_witness : (joinGroups joinDemoBoard 0 8).1 = true := by
  have h := c3_joinGroups_contract joinDemoBoard
    (findGroupLeader (findGroupLeader joinDemoBoard 0).2 8).2 0 8
    (findGroupLeader joinDemoBoard 0).1
    (findGroupLeader (findGroupLeader joinDemoBoard 0).2 8).1 _ _
    rfl rfl rfl rfl rfl (by decide) (by decide)
  exact h.1.mpr (by decide)

end GeodesicY
